import Mathlib

/-!
# Verification of the block-structured Markdown editor (`Doc.tsx`)

This development is a shallow embedding of the block document model of the
editor: block segmentation (`splitIntoBlocks`), the structural split
(`handleBlockSplit`), the backward merge and empty-block deletion branches of
`handleKeyDown`, the list-aware Enter handler, and the inline bold command
(`handleBold`).  Strings are modelled as `List Char`; JavaScript string
methods (`trim`, `slice`, `indexOf`, `split`) are reproduced over that type
for the ASCII fragment the editor manipulates.
-/

namespace MdEditor

/-- Strings of the editor, modelled as lists of characters. -/
abbrev Str := List Char

/-- Coercion from Lean string literals, for concrete test inputs. -/
def str (s : String) : Str := s.data

/-- The ASCII whitespace characters recognised by JavaScript's `\s`, `trim`,
`trimEnd` on the inputs the editor manipulates. -/
def isWsChar (c : Char) : Bool :=
  c == ' ' || c == '\t' || c == '\n' || c == '\r' || c == '\x0b' || c == '\x0c'

/-- JavaScript `String.prototype.trimStart`. -/
def trimLeft (s : Str) : Str := s.dropWhile isWsChar

/-- JavaScript `String.prototype.trimEnd`. -/
def trimRight (s : Str) : Str := (s.reverse.dropWhile isWsChar).reverse

/-- JavaScript `String.prototype.trim`. -/
def trim (s : Str) : Str := trimRight (trimLeft s)

/-- Model of `text.replace(/\r\n?/g, "\n")`: the line-ending normalisation at the top
of `splitIntoBlocks`.  Scanning left to right, `"\r\n"` and a lone `"\r"`
both become `"\n"`. -/
def normalizeNewlines : Str → Str
  | [] => []
  | [c] => [if c = '\r' then '\n' else c]
  | c :: c2 :: rest =>
    if c = '\r' then
      if c2 = '\n' then '\n' :: normalizeNewlines rest
      else '\n' :: normalizeNewlines (c2 :: rest)
    else c :: normalizeNewlines (c2 :: rest)

/-- JavaScript `String.prototype.split` with a single-character separator:
`"".split(c) = [""]`, and a trailing separator yields a trailing `""`. -/
def splitOnChar (sep : Char) : Str → List Str
  | [] => [[]]
  | c :: rest =>
    match splitOnChar sep rest with
    | [] => [[]]
    | l :: ls => if c = sep then [] :: l :: ls else (c :: l) :: ls

/-- Model of `/^#+\s/.test(line)`: one or more `#` characters followed by a whitespace
character.  Backtracking over `#+` is irrelevant because the character after a
shorter run of `#`s is `#` itself, which is not `\s`; so the test is: drop the
maximal run of `#`, the run is nonempty and the next character is whitespace. -/
def headingAfterHash : Str → Bool
  | [] => false
  | c :: rest => if c = '#' then headingAfterHash rest else isWsChar c

/-- See `isHeadingLine`: the first character must be `'#'`. -/
def isHeadingLine : Str → Bool
  | [] => false
  | c :: rest => if c = '#' then headingAfterHash rest else false

end MdEditor

namespace MdEditor

/-- One step of the line scanner of `splitIntoBlocks` (state: emitted blocks,
current buffer).  Mirrors the `for` loop body:
headings flush the buffer and are pushed trimmed; blank lines flush the
buffer; other lines accumulate, `"\n"`-joined, into the buffer. -/
def scanStep (st : List Str × Str) (line : Str) : List Str × Str :=
  if isHeadingLine line then
    (st.1 ++ (if trim st.2 = [] then [] else [trim st.2]) ++ [trim line], [])
  else if trim line = [] then
    (if trim st.2 = [] then st else (st.1 ++ [trim st.2], []))
  else
    (st.1, (if st.2 = [] then [] else st.2 ++ ['\n']) ++ line)

/-- Model of `if (buffer.trim()) blocks.push(buffer.trim())`: the final flush of the
scanner, also used when a heading or blank line closes the buffer. -/
def flushT (buf : Str) : List Str :=
  if trim buf = [] then [] else [trim buf]

/-- Model of `splitIntoBlocks` from `Doc.tsx`: normalise line endings, scan line by
line isolating headings and splitting on blank lines, flush the trailing
buffer, and `filter(Boolean)` the result. -/
def splitIntoBlocks (text : Str) : List Str :=
  let lines := splitOnChar '\n' (normalizeNewlines text)
  let s := lines.foldl scanStep ([], [])
  (s.1 ++ flushT s.2).filter (fun b => !b.isEmpty)

end MdEditor

namespace MdEditor


/-- The task-item alternative `- \[[ xX]\] ` of the list-item regexes.
(Unreachable in practice: any string it matches starts with `"- "` and is
already matched by the first alternative, which JavaScript tries first.) -/
def taskMarkerX (rest : Str) : Option (Str × Str) :=
  match rest with
  | '-' :: ' ' :: '[' :: c :: ']' :: ' ' :: r =>
    if c == ' ' || c == 'x' || c == 'X' then some (['-', ' ', '[', c, ']', ' '], r)
    else none
  | _ => none

/-- The task-item alternative `- \[.\] ` used by the backward-merge branch
(any single character between the brackets).  Also unreachable, as above. -/
def taskMarkerDot (rest : Str) : Option (Str × Str) :=
  match rest with
  | '-' :: ' ' :: '[' :: c :: ']' :: ' ' :: r => some (['-', ' ', '[', c, ']', ' '], r)
  | _ => none

/-- The `\d+\. ` alternative: a maximal nonempty digit run followed by `". "`.
(Backtracking to a shorter digit run cannot help, since the next character
would be a digit, not `'.'`.) -/
def digitsMarker (rest : Str) : Option (Str × Str) :=
  match rest.takeWhile Char.isDigit, rest.dropWhile Char.isDigit with
  | [], _ => none
  | d :: ds, '.' :: ' ' :: r => some (d :: ds ++ ['.', ' '], r)
  | _ :: _, _ => none

/-- Matching `([-*+] |\d+\. |- \[[ xX]\] )` at the start of `rest`
(alternatives tried in JavaScript's left-to-right order), returning the
matched marker and the remainder. -/
def listMarkerSplit (rest : Str) : Option (Str × Str) :=
  match rest with
  | c1 :: c2 :: r =>
    if (c1 == '-' || c1 == '*' || c1 == '+') && c2 == ' ' then some ([c1, c2], r)
    else match digitsMarker (c1 :: c2 :: r) with
      | some m => some m
      | none => taskMarkerX (c1 :: c2 :: r)
  | rest =>
    match digitsMarker rest with
    | some m => some m
    | none => taskMarkerX rest

/-- Matching `([-*+] |\d+\. |- \[.\] )` at the start of `rest`: the variant
used by the backward-merge branch's list test. -/
def listMarkerSplitDot (rest : Str) : Option (Str × Str) :=
  match rest with
  | c1 :: c2 :: r =>
    if (c1 == '-' || c1 == '*' || c1 == '+') && c2 == ' ' then some ([c1, c2], r)
    else match digitsMarker (c1 :: c2 :: r) with
      | some m => some m
      | none => taskMarkerDot (c1 :: c2 :: r)
  | rest =>
    match digitsMarker rest with
    | some m => some m
    | none => taskMarkerDot rest

/-- A line matches `^(\s*)([-*+] |\d+\. |- \[[ xX]\] )`.  The greedy `\s*`
must end exactly at the first non-whitespace character, because every marker
alternative begins with a non-whitespace character. -/
def isListLineX (l : Str) : Bool := (listMarkerSplit (l.dropWhile isWsChar)).isSome

/-- A line matches `^(\s*)([-*+] |\d+\. |- \[.\] )`. -/
def isListLineDot (l : Str) : Bool := (listMarkerSplitDot (l.dropWhile isWsChar)).isSome

/-- Model of `/^(\s*)([-*+] |\d+\. |- \[[ xX]\] )/m.test(text)`: with the `m` flag the
test succeeds iff some line matches the anchored pattern.  (A match whose
`\s*` spans newlines ends in the same line as the marker, whose whitespace
prefix it consumed, so the per-line reading is equivalent.) -/
def isListBlockX (text : Str) : Bool :=
  (splitOnChar '\n' text).any isListLineX

/-- Model of `/^(\s*)([-*+] |\d+\. |- \[.\] )/m.test(text)`: the variant used by the
backward-merge branch for both blocks. -/
def isListBlockDot (text : Str) : Bool :=
  (splitOnChar '\n' text).any isListLineDot

/-- Model of `currentLineContent.match(/^(\s*)([-*+] |\d+\. |- \[[ xX]\] )(.*)/)`:
parse a list line into `(indent, marker, content)`. -/
def parseListLine (line : Str) : Option (Str × Str × Str) :=
  match listMarkerSplit (line.dropWhile isWsChar) with
  | some (marker, content) => some (line.takeWhile isWsChar, marker, content)
  | none => none


end MdEditor

namespace MdEditor

/-- JavaScript `s.indexOf(pat)` as an integer (`-1` when not found). -/
def indexOfFrom (pat : Str) : Str → Nat → Option Nat
  | [], i => if pat.isEmpty then some i else none
  | s@(_ :: t), i => if pat.isPrefixOf s then some i else indexOfFrom pat t (i + 1)

/-- JavaScript `s.indexOf(pat)`. -/
def jsIndexOf (s pat : Str) : Int :=
  match indexOfFrom pat s 0 with
  | some n => (n : Int)
  | none => -1

/-- JavaScript `s.slice(0, e)` with a possibly negative end index. -/
def jsSliceTo (s : Str) (e : Int) : Str :=
  if e < 0 then s.take ((s.length : Int) + e).toNat else s.take e.toNat

/-- JavaScript `s.slice(b)` with a possibly negative begin index. -/
def jsSliceFrom (s : Str) (b : Int) : Str :=
  if b < 0 then s.drop ((s.length : Int) + b).toNat else s.drop b.toNat

/-- The literal placeholder string `"&nbsp;"` appended after the marker when a
list item is continued at its end. -/
def nbspStr : Str := ['&', 'n', 'b', 's', 'p', ';']

/-- Accumulation of `lines[i] + "\n"`: the three `newMarkdown += line + "\n"`
loops of the list-aware Enter handler build exactly this join. -/
def joinAllNl : List Str → Str
  | [] => []
  | l :: ls => l ++ '\n' :: joinAllNl ls

/-- Newline join without a trailing newline (`lines.join("\n")`), used to
state what the handler produces after its final `trimEnd`. -/
def intercalateNl : List Str → Str
  | [] => []
  | [l] => l
  | l :: ls => l ++ '\n' :: intercalateNl ls

/-- The list-aware Enter path of `handleKeyDown` as a text transformation.
`currentLine` is the `data-line` attribute of the span under the caret and
`caretPos` is `range.startOffset` (the offset inside that line's text node).
Returns `none` where the handler returns early (line not found / line fails
the marker pattern); the caller has already checked `isListBlockX`. -/
def listEnter (blockMarkdown currentLine : Str) (caretPos : Nat) : Option Str :=
  let lines := splitOnChar '\n' blockMarkdown
  match lines.findIdx? (fun l => trim l == trim currentLine) with
  | none => none
  | some currentLineIndex =>
    let currentLineContent := lines.getD currentLineIndex []
    match parseListLine currentLineContent with
    | none => none
    | some (indent, marker, content) =>
      let trimmedContent := trim content
      let contentStart := jsIndexOf currentLineContent trimmedContent
      let offsetInContent : Int := (caretPos : Int) - contentStart
      let mid : Str :=
        if (trimmedContent.length : Int) ≤ offsetInContent then
          currentLineContent ++ '\n' :: (indent ++ marker ++ nbspStr) ++ ['\n']
        else
          (indent ++ marker ++ jsSliceTo trimmedContent offsetInContent) ++ '\n' ::
            (indent ++ marker ++ jsSliceFrom trimmedContent offsetInContent) ++ ['\n']
      some (trimRight (joinAllNl (lines.take currentLineIndex) ++ mid ++
        joinAllNl (lines.drop (currentLineIndex + 1))))


end MdEditor

namespace MdEditor

/-- Block identifiers (opaque `shortid` strings in the source, assumed
collision-free by the id-generator contract). -/
abbrev BlockId := Nat

/-- The document state: the React state pair of `Doc.tsx`.
`doc` models the `Record<string, string>` object as an association list with
unique keys in insertion order; `order` is `allLines`, the ordering sequence
of block ids. -/
structure DocState where
  doc : List (BlockId × Str)
  order : List BlockId
deriving DecidableEq

/-- Key lookup `doc[id]` in the record. -/
def lookupD (m : List (BlockId × Str)) (k : BlockId) : Option Str :=
  (m.find? (fun p => p.1 == k)).map Prod.snd

/-- Model of the spread update: replace the value in place when the key exists,
otherwise append the new key (JavaScript object key insertion order). -/
def setD (m : List (BlockId × Str)) (k : BlockId) (v : Str) : List (BlockId × Str) :=
  if m.any (fun p => p.1 == k) then m.map (fun p => if p.1 == k then (k, v) else p)
  else m ++ [(k, v)]

/-- Model of `delete doc[k]`. -/
def delD (m : List (BlockId × Str)) (k : BlockId) : List (BlockId × Str) :=
  m.filter (fun p => p.1 != k)

/-- The id component of the mapping. -/
def docKeys (m : List (BlockId × Str)) : List BlockId := m.map Prod.fst

/-- The document invariant of §3: the ordering sequence and the mapping have
identical id sets and neither contains a duplicate id. -/
def Inv (st : DocState) : Prop :=
  st.order.Nodup ∧ (docKeys st.doc).Nodup ∧
    (∀ a ∈ st.order, a ∈ docKeys st.doc) ∧ ∀ a ∈ docKeys st.doc, a ∈ st.order

instance (st : DocState) : Decidable (Inv st) := by
  unfold Inv
  infer_instance

/-- The two halves of `handleBlockSplit`: cut `blockMarkdown` at `caretPos`,
re-segment each half with `splitIntoBlocks`, and synthesise a single
empty-string block for a half that segments to nothing. -/
def splitHalves (blockMarkdown : Str) (caretPos : Nat) : List Str × List Str :=
  let before := blockMarkdown.take caretPos
  let after := blockMarkdown.drop caretPos
  let beforeBlocks0 := splitIntoBlocks before
  let afterBlocks0 := splitIntoBlocks after
  (if beforeBlocks0.isEmpty then [[]] else beforeBlocks0,
   if afterBlocks0.isEmpty then [[]] else afterBlocks0)

/-- Model of `handleBlockSplit`: the structural split.  `freshIds` supplies the
`shortid.generate()` results.  The original id is reused for the first
resulting block; the ordering entry for the original id is spliced out and
replaced by the whole new id sequence; edit focus moves to the first block of
the "after" half.  Returns `none` when the id is not in the ordering
sequence (the handler only ever receives ids of rendered blocks, i.e. members
of `allLines`; the `indexOf = -1` path is not modelled). -/
def applySplit (st : DocState) (id : BlockId) (blockMarkdown : Str) (caretPos : Nat)
    (freshIds : List BlockId) : Option (DocState × BlockId) :=
  match st.order.findIdx? (fun x => x == id) with
  | none => none
  | some idx =>
    let bb := (splitHalves blockMarkdown caretPos).1
    let ab := (splitHalves blockMarkdown caretPos).2
    let newIds := id :: freshIds.take (bb.length - 1 + ab.length)
    let docUpdate := (newIds.zip (bb ++ ab)).foldl (fun m p => setD m p.1 p.2) st.doc
    some ({ doc := docUpdate,
            order := st.order.take idx ++ newIds ++ st.order.drop (idx + 1) },
          newIds.getD bb.length 0)

/-- The join performed by the backward-merge branch: list items are joined
with a newline when both blocks pass the list test, otherwise the texts are
concatenated directly. -/
def mergeTexts (prevText currText : Str) : Str :=
  if isListBlockDot prevText && isListBlockDot currText then prevText ++ '\n' :: currText
  else prevText ++ currText

/-- The backward-merge branch of `handleKeyDown` (Backspace with the caret at
the start of a block).  Returns the new state, the id receiving edit focus and
the caret target offset (the previous block's pre-merge text length), or
`none` when the block is first in the ordering sequence (`idx > 0` fails)
or not in it at all. -/
def applyMerge (st : DocState) (id : BlockId) : Option (DocState × BlockId × Nat) :=
  match st.order.findIdx? (fun x => x == id) with
  | none => none
  | some idx =>
    if idx = 0 then none
    else
      let prevId := st.order.getD (idx - 1) 0
      let prevText := (lookupD st.doc prevId).getD []
      let currText := (lookupD st.doc id).getD []
      let newDoc := delD (setD st.doc prevId (mergeTexts prevText currText)) id
      some ({ doc := newDoc, order := st.order.take idx ++ st.order.drop (idx + 1) },
            prevId, prevText.length)

/-- The empty-block deletion branch of `handleKeyDown` (Backspace/Delete on a
block whose rendered text is empty or a lone zero-width space): the block is
removed from mapping and ordering sequence.  Also returns the focus target:
the block now at the same index (caret at start, `false`) if any, else the
preceding block (caret at end, `true`). -/
def applyDelete (st : DocState) (id : BlockId) : Option (DocState × Option (BlockId × Bool)) :=
  match st.order.findIdx? (fun x => x == id) with
  | none => none
  | some idx =>
    let newOrder := st.order.take idx ++ st.order.drop (idx + 1)
    let focus : Option (BlockId × Bool) :=
      if idx < newOrder.length then some (newOrder.getD idx 0, false)
      else if 1 ≤ idx ∧ 0 < newOrder.length then some (newOrder.getD (idx - 1) 0, true)
      else none
    some ({ doc := delD st.doc id, order := newOrder }, focus)

/-- The list-aware Enter path at document level: it only rewrites the one
block's text (`setDoc((prev) => ({...prev, [id]: newMarkdown}))`) and leaves
`allLines` untouched.  The block's serialized text stands in for the
`htmlToMarkdown` of its DOM node. -/
def listEnterStep (st : DocState) (id : BlockId) (currentLine : Str) (caretPos : Nat) :
    Option DocState :=
  match lookupD st.doc id with
  | none => none
  | some blockMarkdown =>
    if isListBlockX blockMarkdown then
      match listEnter blockMarkdown currentLine caretPos with
      | none => none
      | some newMarkdown => some { doc := setD st.doc id newMarkdown, order := st.order }
    else none

/-- Model of `handleBold`: here `blockId?` stands for the result of the
`closest("[data-block-id]")` lookup (the owning block, when identifiable),
`selectedText` the selection's `toString()`, and the offsets the range's
`startOffset`/`endOffset`.  No-ops when the selection is collapsed, no block
is identified, the block's content is absent or empty, or the selected text
is empty; otherwise splices `**` around the selected text. -/
def applyInlineBold (doc : List (BlockId × Str)) (isCollapsed : Bool)
    (blockId? : Option BlockId) (selectedText : Str) (startOffset endOffset : Nat) :
    List (BlockId × Str) :=
  if isCollapsed then doc
  else
    match blockId? with
    | none => doc
    | some blockId =>
      match lookupD doc blockId with
      | none => doc
      | some blockContent =>
        if blockContent.isEmpty then doc
        else if selectedText.isEmpty then doc
        else
          setD doc blockId (blockContent.take startOffset ++ ['*', '*'] ++ selectedText ++
            ['*', '*'] ++ blockContent.drop endOffset)

/-- The branches of `handleKeyDown`'s else-if chain, in source order. -/
inductive HandlerBranch where
  | enterStructural
  | enterLiteral
  | mergeFirst
  | emptyDelete
  | mergeSecond
  | fallthrough
deriving DecidableEq

/-- The else-if chain of `handleKeyDown` as a dispatch function.
`caretAtStart` is the (pure) result of `isCaretAtStartOfBlock(block, sel)`,
evaluated on the same unaltered arguments in the third and fifth guards;
`textEmptyOrZw` is `block.textContent === "" || block.textContent === "​"`. -/
def keydownBranch (key : String) (shiftKey caretAtStart textEmptyOrZw : Bool) :
    HandlerBranch :=
  if key == "Enter" && !shiftKey then .enterStructural
  else if key == "Enter" && shiftKey then .enterLiteral
  else if key == "Backspace" && caretAtStart then .mergeFirst
  else if (key == "Backspace" || key == "Delete") && textEmptyOrZw then .emptyDelete
  else if key == "Backspace" && caretAtStart then .mergeSecond
  else .fallthrough

/-- Modelled from the spec: the claims' "join" that recombines the emitted
block texts into one document text.  The source never rejoins blocks; blocks
are separated by blank lines, so the join inserts one blank line (`"\n\n"`)
between consecutive block texts. -/
def joinBlocks : List Str → Str
  | [] => []
  | [b] => b
  | b :: bs => b ++ '\n' :: '\n' :: joinBlocks bs

/-- Helper for `mergeAll`: merge each remaining block into the accumulated
first block, left to right. -/
def mergeAllFrom (acc : Str) : List Str → Str
  | [] => acc
  | b :: rest => mergeAllFrom (mergeTexts acc b) rest

/-- Modelled from the spec: "immediately backward-merging the resulting two
(or more) blocks back together" — repeated Backspace at the start of the
second remaining block, each step joining as `mergeTexts` does. -/
def mergeAll : List Str → Str
  | [] => []
  | b :: rest => mergeAllFrom b rest

/-- The scanner's buffer is empty or has nonblank content: the buffer only
accumulates lines whose `trim` is nonempty. -/
def BufNE (buf : Str) : Prop := buf = [] ∨ trim buf ≠ []

/-- Replace the last element of a line list by its `trimRight`. -/
def trimRightLast : List Str → List Str
  | [] => []
  | [l] => [trimRight l]
  | l :: ls => l :: trimRightLast ls

/-- Trim the first line on the left and the last line on the right: the lines
of `trim` applied to a newline-join of nonblank lines. -/
def trimEndsLines : List Str → List Str
  | [] => []
  | l :: t => trimRightLast (trimLeft l :: t)

/-- A block text that re-segments to itself (and is nonempty and free of
carriage returns): the shape of every block `splitIntoBlocks` emits when no
line of the input hides a heading behind leading whitespace. -/
def blockOK (b : Str) : Prop := b ≠ [] ∧ '\r' ∉ b ∧ splitIntoBlocks b = [b]

/-- Facts about each line held in the scanner's buffer. -/
def bufLineOK (l : Str) : Prop :=
  '\n' ∉ l ∧ '\r' ∉ l ∧ trim l ≠ [] ∧ isHeadingLine l = false ∧
    isHeadingLine (trimLeft l) = false

/-- The scanner's buffer is empty or the newline-join of buffered lines. -/
def bufOK (buf : Str) : Prop :=
  buf = [] ∨ ∃ ls, buf = intercalateNl ls ∧ ls ≠ [] ∧ ∀ l ∈ ls, bufLineOK l

/-- Hypothesis on each input line for idempotence: newline-free (as produced
by the line split), carriage-return free (as produced by normalisation), and
not a heading hidden behind leading whitespace. -/
def lineOK (l : Str) : Prop :=
  '\n' ∉ l ∧ '\r' ∉ l ∧
    (isHeadingLine (trimLeft l) = true → isHeadingLine l = true)


theorem splitOnChar_ne_nil (sep : Char) (s : Str) : splitOnChar sep s ≠ [] := by
  induction s with
  | nil => simp [splitOnChar]
  | cons c rest ih =>
    obtain ⟨l, ls, hls⟩ := List.exists_cons_of_ne_nil ih
    simp only [splitOnChar, hls]
    split <;> simp

theorem splitOnChar_cons_of_ne (sep c : Char) (rest : Str) (h : c ≠ sep) :
    splitOnChar sep (c :: rest) =
      (c :: (splitOnChar sep rest).headD []) :: (splitOnChar sep rest).tail := by
  obtain ⟨l, ls, hls⟩ := List.exists_cons_of_ne_nil (splitOnChar_ne_nil sep rest)
  simp [splitOnChar, hls, h]

theorem splitOnChar_cons_self (sep : Char) (rest : Str) :
    splitOnChar sep (sep :: rest) = [] :: splitOnChar sep rest := by
  obtain ⟨l, ls, hls⟩ := List.exists_cons_of_ne_nil (splitOnChar_ne_nil sep rest)
  simp [splitOnChar, hls]

theorem splitOnChar_append (sep : Char) (a b : Str) :
    splitOnChar sep (a ++ sep :: b) = splitOnChar sep a ++ splitOnChar sep b := by
  induction a with
  | nil => rw [List.nil_append, splitOnChar_cons_self]; rfl
  | cons c a ih =>
    by_cases hc : c = sep
    · subst hc
      simp [splitOnChar_cons_self, ih]
    · obtain ⟨l, ls, hls⟩ := List.exists_cons_of_ne_nil (splitOnChar_ne_nil sep a)
      rw [List.cons_append, splitOnChar_cons_of_ne sep c _ hc,
        splitOnChar_cons_of_ne sep c a hc, ih, hls]
      simp

theorem splitOnChar_eq_singleton (sep : Char) (s : Str) (h : sep ∉ s) :
    splitOnChar sep s = [s] := by
  induction s with
  | nil => rfl
  | cons c rest ih =>
    have hc : c ≠ sep := fun hcs => h (hcs ▸ List.mem_cons_self c rest)
    rw [splitOnChar_cons_of_ne sep c rest hc, ih (fun hm => h (List.mem_cons_of_mem c hm))]
    rfl

theorem not_mem_of_mem_splitOnChar (sep : Char) (s l : Str)
    (h : l ∈ splitOnChar sep s) : sep ∉ l := by
  induction s generalizing l with
  | nil =>
    simp only [splitOnChar, List.mem_singleton] at h
    simp [h]
  | cons c rest ih =>
    by_cases hc : c = sep
    · subst hc
      rw [splitOnChar_cons_self] at h
      rcases List.mem_cons.mp h with h | h
      · simp [h]
      · exact ih l h
    · rw [splitOnChar_cons_of_ne sep c rest hc] at h
      obtain ⟨l0, ls, hls⟩ := List.exists_cons_of_ne_nil (splitOnChar_ne_nil sep rest)
      rw [hls] at h
      simp only [List.headD_cons, List.tail_cons] at h
      rcases List.mem_cons.mp h with h | h
      · subst h
        intro hmem
        rcases List.mem_cons.mp hmem with h1 | h1
        · exact hc h1.symm
        · exact ih l0 (hls ▸ List.mem_cons_self l0 ls) h1
      · exact ih l (hls ▸ List.mem_cons_of_mem l0 h)

theorem mem_of_mem_splitOnChar (sep : Char) (s l : Str) (c : Char)
    (hl : l ∈ splitOnChar sep s) (hc : c ∈ l) : c ∈ s := by
  induction s generalizing l with
  | nil =>
    simp only [splitOnChar, List.mem_singleton] at hl
    subst hl
    exact absurd hc (List.not_mem_nil c)
  | cons c0 rest ih =>
    by_cases h0 : c0 = sep
    · subst h0
      rw [splitOnChar_cons_self] at hl
      rcases List.mem_cons.mp hl with h | h
      · subst h
        exact absurd hc (List.not_mem_nil c)
      · exact List.mem_cons_of_mem _ (ih l h hc)
    · rw [splitOnChar_cons_of_ne sep c0 rest h0] at hl
      obtain ⟨l0, ls, hls⟩ := List.exists_cons_of_ne_nil (splitOnChar_ne_nil sep rest)
      rw [hls] at hl
      simp only [List.headD_cons, List.tail_cons] at hl
      rcases List.mem_cons.mp hl with h | h
      · subst h
        rcases List.mem_cons.mp hc with h1 | h1
        · exact h1 ▸ List.mem_cons_self c0 rest
        · exact List.mem_cons_of_mem _ (ih l0 (hls ▸ List.mem_cons_self l0 ls) h1)
      · exact List.mem_cons_of_mem _ (ih l (hls ▸ List.mem_cons_of_mem l0 h) hc)

theorem intercalateNl_cons_cons (a b : Str) (t : List Str) :
    intercalateNl (a :: b :: t) = a ++ '\n' :: intercalateNl (b :: t) := rfl

theorem intercalateNl_splitOnChar (s : Str) :
    intercalateNl (splitOnChar '\n' s) = s := by
  induction s with
  | nil => rfl
  | cons c rest ih =>
    by_cases hc : c = '\n'
    · subst hc
      rw [splitOnChar_cons_self]
      obtain ⟨l, ls, hls⟩ := List.exists_cons_of_ne_nil (splitOnChar_ne_nil '\n' rest)
      rw [hls, intercalateNl_cons_cons, ← hls, ih]
      rfl
    · rw [splitOnChar_cons_of_ne '\n' c rest hc]
      obtain ⟨l, ls, hls⟩ := List.exists_cons_of_ne_nil (splitOnChar_ne_nil '\n' rest)
      rw [hls]
      simp only [List.headD_cons, List.tail_cons]
      rw [hls] at ih
      cases ls with
      | nil => simpa [intercalateNl] using congrArg (c :: ·) ih
      | cons l2 ls2 =>
        rw [intercalateNl_cons_cons] at ih ⊢
        simpa using congrArg (c :: ·) ih

theorem splitOnChar_intercalateNl (L : List Str) (hne : L ≠ [])
    (h : ∀ l ∈ L, '\n' ∉ l) : splitOnChar '\n' (intercalateNl L) = L := by
  induction L with
  | nil => exact absurd rfl hne
  | cons x t ih =>
    cases t with
    | nil =>
      exact splitOnChar_eq_singleton '\n' x (h x (List.mem_cons_self x []))
    | cons y t2 =>
      rw [intercalateNl_cons_cons, splitOnChar_append, ih (by simp)
        (fun l hl => h l (List.mem_cons_of_mem x hl)),
        splitOnChar_eq_singleton '\n' x (h x (List.mem_cons_self x _))]
      rfl

theorem dropWhile_head_not (p : Char → Bool) (l : Str) (c : Char) (t : Str)
    (h : l.dropWhile p = c :: t) : p c = false := by
  induction l with
  | nil => simp at h
  | cons a l ih =>
    rw [List.dropWhile_cons] at h
    by_cases ha : p a
    · rw [if_pos ha] at h
      exact ih h
    · rw [if_neg ha] at h
      cases h
      exact Bool.not_eq_true _ ▸ ha

theorem dropWhile_dropWhile (p : Char → Bool) (l : Str) :
    (l.dropWhile p).dropWhile p = l.dropWhile p := by
  rcases h : l.dropWhile p with _ | ⟨c, t⟩
  · rfl
  · rw [List.dropWhile_cons, if_neg]
    simp [dropWhile_head_not p l c t h]

theorem trimLeft_trimLeft (s : Str) : trimLeft (trimLeft s) = trimLeft s :=
  dropWhile_dropWhile isWsChar s

theorem trimRight_trimRight (s : Str) : trimRight (trimRight s) = trimRight s := by
  unfold trimRight
  rw [List.reverse_reverse, dropWhile_dropWhile]

/-- Any `s` is its own trimRight followed by its all-whitespace tail. -/
theorem trimRight_decomp (s : Str) :
    s = trimRight s ++ (s.reverse.takeWhile isWsChar).reverse := by
  unfold trimRight
  rw [← List.reverse_append, List.takeWhile_append_dropWhile, List.reverse_reverse]

theorem trimLeft_decomp (s : Str) : s = s.takeWhile isWsChar ++ trimLeft s :=
  (List.takeWhile_append_dropWhile ..).symm

theorem mem_trimLeft (s : Str) (c : Char) (h : c ∈ trimLeft s) : c ∈ s :=
  List.Sublist.subset (List.dropWhile_sublist isWsChar) h

theorem mem_trimRight (s : Str) (c : Char) (h : c ∈ trimRight s) : c ∈ s := by
  rw [trimRight_decomp s]
  exact List.mem_append_left _ h

theorem mem_trim (s : Str) (c : Char) (h : c ∈ trim s) : c ∈ s :=
  mem_trimLeft s c (mem_trimRight (trimLeft s) c h)

theorem mem_trimRight_of_not_ws (s : Str) (c : Char) (hc : c ∈ s)
    (hw : isWsChar c = false) : c ∈ trimRight s := by
  rw [trimRight_decomp s] at hc
  rcases List.mem_append.mp hc with h | h
  · exact h
  · have := List.mem_takeWhile_imp (List.mem_reverse.mp h)
    rw [hw] at this
    cases this

theorem mem_trimLeft_of_not_ws (s : Str) (c : Char) (hc : c ∈ s)
    (hw : isWsChar c = false) : c ∈ trimLeft s := by
  rw [trimLeft_decomp s] at hc
  rcases List.mem_append.mp hc with h | h
  · have := List.mem_takeWhile_imp h
    rw [hw] at this
    cases this
  · exact h

theorem mem_trim_of_not_ws (s : Str) (c : Char) (hc : c ∈ s)
    (hw : isWsChar c = false) : c ∈ trim s :=
  mem_trimRight_of_not_ws (trimLeft s) c (mem_trimLeft_of_not_ws s c hc hw) hw

theorem trim_eq_nil_iff (s : Str) : trim s = [] ↔ ∀ c ∈ s, isWsChar c := by
  constructor
  · intro h c hc
    by_contra hw
    have := mem_trim_of_not_ws s c hc (Bool.not_eq_true _ ▸ hw)
    rw [h] at this
    exact absurd this (List.not_mem_nil c)
  · intro h
    have h1 : (trimLeft s).reverse.dropWhile isWsChar = [] :=
      List.dropWhile_eq_nil_iff.mpr
        (fun c hc => h c (mem_trimLeft s c (List.mem_reverse.mp hc)))
    unfold trim trimRight
    rw [h1, List.reverse_nil]

theorem trim_ne_nil_of_mem (s : Str) (c : Char) (hc : c ∈ s)
    (hw : isWsChar c = false) : trim s ≠ [] := by
  intro h
  have := (trim_eq_nil_iff s).mp h c hc
  rw [hw] at this
  cases this

theorem trimRight_append (a b : Str) (h : trimRight b ≠ []) :
    trimRight (a ++ b) = a ++ trimRight b := by
  unfold trimRight at h ⊢
  have hb : b.reverse.dropWhile isWsChar ≠ [] := by
    intro hb
    rw [hb] at h
    exact h rfl
  rw [List.reverse_append, List.dropWhile_append, if_neg, List.reverse_append,
    List.reverse_reverse]
  simp [List.isEmpty_iff, hb]

theorem trimRight_append_ws (s : Str) (c : Char) (h : isWsChar c = true) :
    trimRight (s ++ [c]) = trimRight s := by
  unfold trimRight
  rw [List.reverse_append, List.reverse_singleton, List.singleton_append,
    List.dropWhile_cons, if_pos h]

theorem trimLeft_append (a b : Str) (h : trimLeft a ≠ []) :
    trimLeft (a ++ b) = trimLeft a ++ b := by
  unfold trimLeft at h ⊢
  rw [List.dropWhile_append, if_neg]
  simp [List.isEmpty_iff, h]

theorem trim_trim (s : Str) : trim (trim s) = trim s := by
  rcases h : trim s with _ | ⟨c, t⟩
  · rfl
  · have hpre : trimRight (trimLeft s) = c :: t := h
    have hdec := trimRight_decomp (trimLeft s)
    rw [hpre] at hdec
    have hhead : isWsChar c = false := by
      rcases h2 : trimLeft s with _ | ⟨c2, t2⟩
      · rw [h2] at hdec
        simp at hdec
      · have hcc : c2 = c := by
          have := hdec
          rw [h2] at this
          exact (List.cons_eq_cons.mp this).1
        rw [← hcc]
        exact dropWhile_head_not isWsChar s c2 t2 h2
    show trim (c :: t) = c :: t
    unfold trim trimLeft
    rw [List.dropWhile_cons, if_neg (by simp [hhead])]
    rw [← h]
    exact trimRight_trimRight (trimLeft s)

theorem headingAfterHash_append (s t : Str) (h : headingAfterHash s = true) :
    headingAfterHash (s ++ t) = true := by
  induction s with
  | nil => simp [headingAfterHash] at h
  | cons c r ih =>
    rw [List.cons_append]
    simp only [headingAfterHash] at h ⊢
    by_cases hc : c = '#'
    · rw [if_pos hc] at h ⊢
      exact ih h
    · rw [if_neg hc] at h ⊢
      exact h

theorem isHeadingLine_append (s t : Str) (h : isHeadingLine s = true) :
    isHeadingLine (s ++ t) = true := by
  cases s with
  | nil => simp [isHeadingLine] at h
  | cons c r =>
    rw [List.cons_append]
    simp only [isHeadingLine] at h ⊢
    by_cases hc : c = '#'
    · rw [if_pos hc] at h ⊢
      exact headingAfterHash_append r t h
    · rw [if_neg hc] at h
      cases h

theorem trim_ne_nil_of_heading (l : Str) (h : isHeadingLine l = true) :
    trim l ≠ [] := by
  cases l with
  | nil => simp [isHeadingLine] at h
  | cons c r =>
    simp only [isHeadingLine] at h
    by_cases hc : c = '#'
    · subst hc
      exact trim_ne_nil_of_mem _ '#' (List.mem_cons_self _ _) (by decide)
    · rw [if_neg hc] at h
      cases h

theorem isHeadingLine_of_trimRight (l : Str) (h : isHeadingLine (trimRight l) = true) :
    isHeadingLine l = true := by
  rw [trimRight_decomp l]
  exact isHeadingLine_append _ _ h

theorem normalize_cons_ne (c : Char) (rest : Str) (hc : c ≠ '\r') :
    normalizeNewlines (c :: rest) = c :: normalizeNewlines rest := by
  cases rest with
  | nil => simp [normalizeNewlines, hc]
  | cons c2 r => simp [normalizeNewlines, hc]

theorem normalize_eq_self (s : Str) (h : '\r' ∉ s) : normalizeNewlines s = s := by
  induction s with
  | nil => rfl
  | cons c rest ih =>
    have hc : c ≠ '\r' := fun hcr => h (hcr ▸ List.mem_cons_self c rest)
    rw [normalize_cons_ne c rest hc, ih (fun hm => h (List.mem_cons_of_mem c hm))]

theorem trim_ne_nil_iff (s : Str) : trim s ≠ [] ↔ ∃ c ∈ s, isWsChar c = false := by
  rw [Ne, trim_eq_nil_iff]
  constructor
  · intro h
    rcases not_forall.mp h with ⟨c, hc⟩
    rcases Classical.em (c ∈ s) with hm | hm
    · exact ⟨c, hm, by revert hc; simp⟩
    · exact absurd (fun h2 => absurd h2 hm) hc
  · rintro ⟨c, hm, hw⟩ hall
    rw [hall c hm] at hw
    cases hw

theorem mem_intercalateNl (L : List Str) (c : Char) (h : c ∈ intercalateNl L) :
    c = '\n' ∨ ∃ l ∈ L, c ∈ l := by
  induction L with
  | nil => exact absurd h (List.not_mem_nil c)
  | cons x t ih =>
    cases t with
    | nil => exact Or.inr ⟨x, List.mem_cons_self x [], h⟩
    | cons y t2 =>
      rw [intercalateNl_cons_cons] at h
      rcases List.mem_append.mp h with h1 | h1
      · exact Or.inr ⟨x, List.mem_cons_self x _, h1⟩
      · rcases List.mem_cons.mp h1 with h2 | h2
        · exact Or.inl h2
        · rcases ih h2 with h3 | ⟨l, hl, hcl⟩
          · exact Or.inl h3
          · exact Or.inr ⟨l, List.mem_cons_of_mem x hl, hcl⟩

theorem scanStep_shift (B : List Str) (buf : Str) (l : Str) :
    scanStep (B, buf) l = (B ++ (scanStep ([], buf) l).1, (scanStep ([], buf) l).2) := by
  unfold scanStep
  split_ifs <;> simp

theorem scan_shift (ls : List Str) (B : List Str) (buf : Str) :
    ls.foldl scanStep (B, buf) =
      (B ++ (ls.foldl scanStep ([], buf)).1, (ls.foldl scanStep ([], buf)).2) := by
  induction ls generalizing B buf with
  | nil => simp
  | cons l ls ih =>
    rw [List.foldl_cons, List.foldl_cons, scanStep_shift B buf l]
    rcases h0 : scanStep ([], buf) l with ⟨B1, buf1⟩
    rw [ih (B ++ B1) buf1, ih B1 buf1]
    simp

theorem trim_nil : trim ([] : Str) = [] := rfl

theorem scanStep_buf_ne (B : List Str) (buf l : Str) (h : BufNE buf) :
    BufNE (scanStep (B, buf) l).2 := by
  unfold scanStep
  by_cases h1 : isHeadingLine l = true
  · rw [if_pos h1]
    exact Or.inl rfl
  · rw [if_neg h1]
    by_cases h2 : trim l = []
    · rw [if_pos h2]
      by_cases hb : trim buf = []
      · rw [if_pos hb]
        exact h
      · rw [if_neg hb]
        exact Or.inl rfl
    · rw [if_neg h2]
      right
      rcases (trim_ne_nil_iff l).mp h2 with ⟨c, hc, hw⟩
      exact (trim_ne_nil_iff _).mpr ⟨c, List.mem_append_right _ hc, hw⟩

theorem scan_buf_ne (ls : List Str) (B : List Str) (buf : Str) (h : BufNE buf) :
    BufNE (ls.foldl scanStep (B, buf)).2 := by
  induction ls generalizing B buf with
  | nil => exact h
  | cons l ls ih =>
    rw [List.foldl_cons]
    rcases hs : scanStep (B, buf) l with ⟨B1, buf1⟩
    have hne := scanStep_buf_ne B buf l h
    rw [hs] at hne
    exact ih B1 buf1 hne

theorem scan_accum (ls : List Str)
    (h : ∀ l ∈ ls, trim l ≠ [] ∧ isHeadingLine l = false) (B : List Str) (buf : Str)
    (hbuf : buf ≠ []) :
    ls.foldl scanStep (B, buf) = (B, ls.foldl (fun b l => b ++ '\n' :: l) buf) := by
  induction ls generalizing buf with
  | nil => rfl
  | cons l ls ih =>
    have hl := h l (List.mem_cons_self l ls)
    have hstep : scanStep (B, buf) l = (B, buf ++ '\n' :: l) := by
      unfold scanStep
      rw [if_neg (by simp [hl.2]), if_neg hl.1, if_neg hbuf]
      simp
    rw [List.foldl_cons, List.foldl_cons, hstep]
    exact ih (fun l2 hl2 => h l2 (List.mem_cons_of_mem l hl2)) (buf ++ '\n' :: l) (by simp)

theorem foldl_nl_intercalate (ls : List Str) (x : Str) :
    ls.foldl (fun b l => b ++ '\n' :: l) x = intercalateNl (x :: ls) := by
  induction ls generalizing x with
  | nil => rfl
  | cons l ls ih =>
    rw [List.foldl_cons, ih (x ++ '\n' :: l), intercalateNl_cons_cons]
    cases ls with
    | nil => rfl
    | cons l2 ls2 => rw [intercalateNl_cons_cons, intercalateNl_cons_cons]; simp

theorem scan_accum_from_nil (l0 : Str) (ls : List Str)
    (h : ∀ l ∈ l0 :: ls, trim l ≠ [] ∧ isHeadingLine l = false) (B : List Str) :
    (l0 :: ls).foldl scanStep (B, []) = (B, intercalateNl (l0 :: ls)) := by
  have hl0 := h l0 (List.mem_cons_self l0 ls)
  have hne : l0 ≠ [] := by
    intro he
    rw [he] at hl0
    exact hl0.1 rfl
  have hstep : scanStep (B, []) l0 = (B, l0) := by
    unfold scanStep
    rw [if_neg (by simp [hl0.2]), if_neg hl0.1, if_pos rfl]
    simp
  rw [List.foldl_cons, hstep,
    scan_accum ls (fun l2 hl2 => h l2 (List.mem_cons_of_mem l0 hl2)) B l0 hne,
    foldl_nl_intercalate]

theorem segment_single (s : Str) (hn : '\n' ∉ s) (hr : '\r' ∉ s)
    (ht : trim s = s) (hne : s ≠ []) : splitIntoBlocks s = [s] := by
  unfold splitIntoBlocks
  rw [normalize_eq_self s hr, splitOnChar_eq_singleton '\n' s hn]
  have hb : trim s ≠ [] := by
    rw [ht]
    exact hne
  by_cases hh : isHeadingLine s = true
  · have hstep : scanStep ([], []) s = ([s], []) := by
      unfold scanStep
      rw [if_pos hh]
      simp [trim_nil, ht]
    simp [List.foldl_cons, List.foldl_nil, hstep, flushT, trim_nil, List.isEmpty_iff, hne]
  · have hstep : scanStep ([], []) s = ([], s) := by
      unfold scanStep
      rw [if_neg hh, if_neg hb, if_pos rfl]
      simp
    simp [List.foldl_cons, List.foldl_nil, hstep, flushT, hb, ht, List.isEmpty_iff, hne]

/-- Evaluation of `splitIntoBlocks` on a newline-join of newline-free lines, as
the scan of those lines. -/
theorem segment_of_lines (L : List Str) (hclean : ∀ l ∈ L, '\n' ∉ l ∧ '\r' ∉ l) :
    splitIntoBlocks (intercalateNl L) =
      ((L.foldl scanStep ([], [])).1 ++ flushT (L.foldl scanStep ([], [])).2).filter
        (fun b => !b.isEmpty) := by
  cases L with
  | nil => rfl
  | cons l0 t =>
    have hr : '\r' ∉ intercalateNl (l0 :: t) := by
      intro hm
      rcases mem_intercalateNl _ '\r' hm with h1 | ⟨l, hl, hcl⟩
      · exact absurd h1 (by decide)
      · exact (hclean l hl).2 hcl
    unfold splitIntoBlocks
    rw [normalize_eq_self _ hr,
      splitOnChar_intercalateNl (l0 :: t) (by simp) (fun l hl => (hclean l hl).1)]

/-- Scanning lines that are all nonblank and non-heading from an empty state
buffers everything; the final flush emits the single trimmed join. -/
theorem segment_of_plain_lines (L : List Str)
    (hclean : ∀ l ∈ L, '\n' ∉ l ∧ '\r' ∉ l)
    (hplain : ∀ l ∈ L, trim l ≠ [] ∧ isHeadingLine l = false) (hne : L ≠ []) :
    splitIntoBlocks (intercalateNl L) = [trim (intercalateNl L)] := by
  rcases List.exists_cons_of_ne_nil hne with ⟨l0, t, rfl⟩
  rw [segment_of_lines _ hclean, scan_accum_from_nil l0 t hplain []]
  have hfl : trim (intercalateNl (l0 :: t)) ≠ [] := by
    have hl0 := hplain l0 (List.mem_cons_self l0 t)
    rcases (trim_ne_nil_iff l0).mp hl0.1 with ⟨c, hc, hw⟩
    refine (trim_ne_nil_iff _).mpr ⟨c, ?_, hw⟩
    cases t with
    | nil => exact hc
    | cons y t2 => rw [intercalateNl_cons_cons]; exact List.mem_append_left _ hc
  simp [flushT, hfl]

/-- Scanning a heading line flushes the buffer, pushes the trimmed heading and
clears the buffer. -/
theorem scanStep_heading (B : List Str) (buf h : Str) (hh : isHeadingLine h = true) :
    scanStep (B, buf) h = (B ++ flushT buf ++ [trim h], []) := by
  unfold scanStep flushT
  rw [if_pos hh]

theorem segment_heading_split (pre suf : List Str) (h : Str)
    (hh : isHeadingLine h = true)
    (hclean : ∀ l ∈ pre ++ h :: suf, '\n' ∉ l ∧ '\r' ∉ l) :
    splitIntoBlocks (intercalateNl (pre ++ h :: suf)) =
      splitIntoBlocks (intercalateNl pre) ++
        trim h :: splitIntoBlocks (intercalateNl suf) := by
  have hcpre : ∀ l ∈ pre, '\n' ∉ l ∧ '\r' ∉ l :=
    fun l hl => hclean l (List.mem_append_left _ hl)
  have hcsuf : ∀ l ∈ suf, '\n' ∉ l ∧ '\r' ∉ l :=
    fun l hl => hclean l (List.mem_append_right _ (List.mem_cons_of_mem h hl))
  rw [segment_of_lines _ hclean, segment_of_lines pre hcpre, segment_of_lines suf hcsuf,
    List.foldl_append]
  rcases h1 : pre.foldl scanStep ([], []) with ⟨B1, buf1⟩
  rw [List.foldl_cons, scanStep_heading B1 buf1 h hh, scan_shift]
  rcases h2 : suf.foldl scanStep ([], []) with ⟨B2, buf2⟩
  have hth : ¬(trim h).isEmpty = true := by
    rw [List.isEmpty_iff]
    exact trim_ne_nil_of_heading h hh
  simp only [List.filter_append, List.append_assoc]
  rw [show List.filter (fun b => !b.isEmpty) [trim h] = [trim h] by simp [hth]]
  simp

theorem mem_intercalateNl_of_mem (L : List Str) (l : Str) (c : Char)
    (hl : l ∈ L) (hc : c ∈ l) : c ∈ intercalateNl L := by
  induction L with
  | nil => exact absurd hl (List.not_mem_nil l)
  | cons x t ih =>
    cases t with
    | nil =>
      rcases List.mem_cons.mp hl with h | h
      · exact h ▸ hc
      · exact absurd h (List.not_mem_nil l)
    | cons y t2 =>
      rw [intercalateNl_cons_cons]
      rcases List.mem_cons.mp hl with h | h
      · exact List.mem_append_left _ (h ▸ hc)
      · exact List.mem_append_right _ (List.mem_cons_of_mem _ (ih h))

theorem trimRight_ne_nil_of_mem (s : Str) (c : Char) (hc : c ∈ s)
    (hw : isWsChar c = false) : trimRight s ≠ [] := by
  intro h
  have := mem_trimRight_of_not_ws s c hc hw
  rw [h] at this
  exact absurd this (List.not_mem_nil c)

theorem trimLeft_ne_nil_of_mem (s : Str) (c : Char) (hc : c ∈ s)
    (hw : isWsChar c = false) : trimLeft s ≠ [] := by
  intro h
  have := mem_trimLeft_of_not_ws s c hc hw
  rw [h] at this
  exact absurd this (List.not_mem_nil c)

theorem intercalateNl_append_singleton (ls : List Str) (l : Str) (hne : ls ≠ []) :
    intercalateNl (ls ++ [l]) = intercalateNl ls ++ '\n' :: l := by
  induction ls with
  | nil => exact absurd rfl hne
  | cons x t ih =>
    cases t with
    | nil => rfl
    | cons y t2 =>
      have ih2 := ih (by simp)
      rw [List.cons_append] at ih2
      rw [List.cons_append, List.cons_append, intercalateNl_cons_cons x y (t2 ++ [l]),
        ih2, intercalateNl_cons_cons x y t2]
      simp

theorem trimRightLast_ne_nil (ls : List Str) (hne : ls ≠ []) :
    trimRightLast ls ≠ [] := by
  cases ls with
  | nil => exact absurd rfl hne
  | cons l t => cases t <;> simp [trimRightLast]

theorem mem_trimRightLast (ls : List Str) (l' : Str) (h : l' ∈ trimRightLast ls) :
    (∃ l ∈ ls, l' = l) ∨ ∃ l ∈ ls, l' = trimRight l := by
  induction ls with
  | nil => exact absurd h (List.not_mem_nil l')
  | cons x t ih =>
    cases t with
    | nil =>
      rcases List.mem_cons.mp h with h1 | h1
      · exact Or.inr ⟨x, List.mem_cons_self x [], h1⟩
      · exact absurd h1 (List.not_mem_nil l')
    | cons y t2 =>
      rcases List.mem_cons.mp h with h1 | h1
      · exact Or.inl ⟨x, List.mem_cons_self x _, h1⟩
      · rcases ih h1 with ⟨l, hl, he⟩ | ⟨l, hl, he⟩
        · exact Or.inl ⟨l, List.mem_cons_of_mem x hl, he⟩
        · exact Or.inr ⟨l, List.mem_cons_of_mem x hl, he⟩

theorem trimRight_intercalate (ls : List Str) (hne : ls ≠ [])
    (hfacts : ∀ l ∈ ls, trim l ≠ []) :
    trimRight (intercalateNl ls) = intercalateNl (trimRightLast ls) := by
  induction ls with
  | nil => exact absurd rfl hne
  | cons x t ih =>
    cases t with
    | nil => rfl
    | cons y t2 =>
      have hy : trim y ≠ [] := hfacts y (List.mem_cons_of_mem x (List.mem_cons_self y t2))
      rcases (trim_ne_nil_iff y).mp hy with ⟨c, hcy, hw⟩
      have hI : c ∈ intercalateNl (y :: t2) :=
        mem_intercalateNl_of_mem _ y c (List.mem_cons_self y t2) hcy
      have htrI : trimRight (intercalateNl (y :: t2)) ≠ [] :=
        trimRight_ne_nil_of_mem _ c hI hw
      have hcons : trimRight ('\n' :: intercalateNl (y :: t2)) =
          '\n' :: trimRight (intercalateNl (y :: t2)) := by
        have := trimRight_append ['\n'] (intercalateNl (y :: t2)) htrI
        simpa using this
      rw [intercalateNl_cons_cons, trimRight_append x ('\n' :: intercalateNl (y :: t2))
        (by rw [hcons]; simp), hcons,
        ih (by simp) (fun l hl => hfacts l (List.mem_cons_of_mem x hl))]
      have hsh := trimRightLast_ne_nil (y :: t2) (by simp)
      rcases List.exists_cons_of_ne_nil hsh with ⟨a, b, hab⟩
      rw [show trimRightLast (x :: y :: t2) = x :: trimRightLast (y :: t2) from rfl, hab,
        intercalateNl_cons_cons]

theorem trim_intercalate (ls : List Str) (hne : ls ≠ [])
    (hfacts : ∀ l ∈ ls, trim l ≠ []) :
    trim (intercalateNl ls) = intercalateNl (trimEndsLines ls) := by
  rcases List.exists_cons_of_ne_nil hne with ⟨l, t, rfl⟩
  have hl : trim l ≠ [] := hfacts l (List.mem_cons_self l t)
  rcases (trim_ne_nil_iff l).mp hl with ⟨c, hcl, hw⟩
  have htl : trimLeft l ≠ [] := trimLeft_ne_nil_of_mem l c hcl hw
  have hstep : trimLeft (intercalateNl (l :: t)) = intercalateNl (trimLeft l :: t) := by
    cases t with
    | nil => rfl
    | cons y t2 =>
      rw [intercalateNl_cons_cons, intercalateNl_cons_cons]
      exact trimLeft_append l ('\n' :: intercalateNl (y :: t2)) htl
  have hfacts2 : ∀ l2 ∈ trimLeft l :: t, trim l2 ≠ [] := by
    intro l2 hl2
    rcases List.mem_cons.mp hl2 with h1 | h1
    · subst h1
      refine (trim_ne_nil_iff _).mpr ⟨c, mem_trimLeft_of_not_ws l c hcl hw, hw⟩
    · exact hfacts l2 (List.mem_cons_of_mem l h1)
  show trimRight (trimLeft (intercalateNl (l :: t))) = _
  rw [hstep, trimRight_intercalate (trimLeft l :: t) (by simp) hfacts2]
  rfl

theorem blockOK_single_line (l : Str) (hn : '\n' ∉ l) (hr : '\r' ∉ l)
    (hne : trim l ≠ []) : blockOK (trim l) := by
  refine ⟨hne, fun hm => hr (mem_trim l '\r' hm), ?_⟩
  exact segment_single (trim l)
    (fun hm => hn (mem_trim l '\n' hm)) (fun hm => hr (mem_trim l '\r' hm))
    (trim_trim l) hne

theorem blockOK_buf (ls : List Str) (hne : ls ≠ []) (hfacts : ∀ l ∈ ls, bufLineOK l) :
    blockOK (trim (intercalateNl ls)) := by
  have htr : ∀ l ∈ ls, trim l ≠ [] := fun l hl => (hfacts l hl).2.2.1
  rw [trim_intercalate ls hne htr]
  rcases List.exists_cons_of_ne_nil hne with ⟨l0, t, rfl⟩
  have hlines : ∀ l2 ∈ trimEndsLines (l0 :: t),
      '\n' ∉ l2 ∧ '\r' ∉ l2 ∧ trim l2 ≠ [] ∧ isHeadingLine l2 = false := by
    intro l2 hl2
    rcases mem_trimRightLast _ l2 hl2 with ⟨l, hl, he⟩ | ⟨l, hl, he⟩
    · -- l2 is an untouched line: either `trimLeft l0` or an original line
      rcases List.mem_cons.mp hl with h1 | h1
      · subst h1
        subst he
        have h0 := hfacts l0 (List.mem_cons_self l0 t)
        refine ⟨fun hm => h0.1 (mem_trimLeft l0 '\n' hm),
          fun hm => h0.2.1 (mem_trimLeft l0 '\r' hm), ?_, h0.2.2.2.2⟩
        rcases (trim_ne_nil_iff l0).mp h0.2.2.1 with ⟨c, hc, hw⟩
        exact (trim_ne_nil_iff _).mpr ⟨c, mem_trimLeft_of_not_ws l0 c hc hw, hw⟩
      · subst he
        have h0 := hfacts l2 (List.mem_cons_of_mem l0 h1)
        exact ⟨h0.1, h0.2.1, h0.2.2.1, h0.2.2.2.1⟩
    · -- l2 = trimRight of `trimLeft l0` or of an original line
      rcases List.mem_cons.mp hl with h1 | h1
      · subst h1
        subst he
        have h0 := hfacts l0 (List.mem_cons_self l0 t)
        rcases (trim_ne_nil_iff l0).mp h0.2.2.1 with ⟨c, hc, hw⟩
        have hctl : c ∈ trimLeft l0 := mem_trimLeft_of_not_ws l0 c hc hw
        refine ⟨fun hm => h0.1 (mem_trimLeft l0 '\n' (mem_trimRight _ '\n' hm)),
          fun hm => h0.2.1 (mem_trimLeft l0 '\r' (mem_trimRight _ '\r' hm)), ?_, ?_⟩
        · exact (trim_ne_nil_iff _).mpr
            ⟨c, mem_trimRight_of_not_ws _ c hctl hw, hw⟩
        · by_cases h2 : isHeadingLine (trimRight (trimLeft l0)) = true
          · exact absurd (isHeadingLine_of_trimRight _ h2) (by simp [h0.2.2.2.2])
          · exact Bool.eq_false_iff.mpr h2
      · subst he
        have h0 := hfacts l (List.mem_cons_of_mem l0 h1)
        rcases (trim_ne_nil_iff l).mp h0.2.2.1 with ⟨c, hc, hw⟩
        refine ⟨fun hm => h0.1 (mem_trimRight l '\n' hm),
          fun hm => h0.2.1 (mem_trimRight l '\r' hm), ?_, ?_⟩
        · exact (trim_ne_nil_iff _).mpr ⟨c, mem_trimRight_of_not_ws l c hc hw, hw⟩
        · by_cases h2 : isHeadingLine (trimRight l) = true
          · exact absurd (isHeadingLine_of_trimRight l h2) (by simp [h0.2.2.2.1])
          · exact Bool.eq_false_iff.mpr h2
  have hEne : trimEndsLines (l0 :: t) ≠ [] := trimRightLast_ne_nil _ (by simp)
  have hseg : splitIntoBlocks (intercalateNl (trimEndsLines (l0 :: t))) =
      [trim (intercalateNl (trimEndsLines (l0 :: t)))] :=
    segment_of_plain_lines _ (fun l hl => ⟨(hlines l hl).1, (hlines l hl).2.1⟩)
      (fun l hl => ⟨(hlines l hl).2.2.1, (hlines l hl).2.2.2⟩) hEne
  have hback : intercalateNl (trimEndsLines (l0 :: t)) = trim (intercalateNl (l0 :: t)) :=
    (trim_intercalate (l0 :: t) (by simp) htr).symm
  refine ⟨?_, ?_, ?_⟩
  · rw [hback]
    rcases (trim_ne_nil_iff l0).mp (htr l0 (List.mem_cons_self l0 t)) with ⟨c, hc, hw⟩
    exact (trim_ne_nil_iff _).mpr
      ⟨c, mem_intercalateNl_of_mem _ l0 c (List.mem_cons_self l0 t) hc, hw⟩
  · intro hm
    rcases mem_intercalateNl _ '\r' hm with h1 | ⟨l, hl, hcl⟩
    · exact absurd h1 (by decide)
    · exact (hlines l hl).2.1 hcl
  · rw [hseg, hback, trim_trim]

theorem blockOK_flushT (buf : Str) (hbuf : bufOK buf) (b : Str) (hb : b ∈ flushT buf) :
    blockOK b := by
  unfold flushT at hb
  by_cases ht : trim buf = []
  · rw [if_pos ht] at hb
    exact absurd hb (List.not_mem_nil b)
  · rw [if_neg ht] at hb
    rcases List.mem_cons.mp hb with h1 | h1
    · subst h1
      rcases hbuf with h2 | ⟨ls, rfl, hne, hfacts⟩
      · rw [h2] at ht
        exact absurd trim_nil ht
      · exact blockOK_buf ls hne hfacts
    · exact absurd h1 (List.not_mem_nil b)

theorem scanStep_good (B : List Str) (buf l : Str)
    (hB : ∀ b ∈ B, blockOK b) (hbuf : bufOK buf) (hl : lineOK l) :
    (∀ b ∈ (scanStep (B, buf) l).1, blockOK b) ∧ bufOK (scanStep (B, buf) l).2 := by
  unfold scanStep
  by_cases h1 : isHeadingLine l = true
  · rw [if_pos h1]
    refine ⟨?_, Or.inl rfl⟩
    intro b hb
    rcases List.mem_append.mp hb with h2 | h2
    · rcases List.mem_append.mp h2 with h3 | h3
      · exact hB b h3
      · exact blockOK_flushT buf hbuf b (by
          unfold flushT
          exact h3)
    · rcases List.mem_cons.mp h2 with h3 | h3
      · subst h3
        exact blockOK_single_line l hl.1 hl.2.1 (trim_ne_nil_of_heading l h1)
      · exact absurd h3 (List.not_mem_nil b)
  · rw [if_neg h1]
    by_cases h2 : trim l = []
    · rw [if_pos h2]
      by_cases h3 : trim buf = []
      · rw [if_pos h3]
        exact ⟨hB, hbuf⟩
      · rw [if_neg h3]
        refine ⟨?_, Or.inl rfl⟩
        intro b hb
        rcases List.mem_append.mp hb with h4 | h4
        · exact hB b h4
        · rcases List.mem_cons.mp h4 with h5 | h5
          · subst h5
            exact blockOK_flushT buf hbuf (trim buf) (by simp [flushT, h3])
          · exact absurd h5 (List.not_mem_nil b)
    · rw [if_neg h2]
      refine ⟨hB, Or.inr ?_⟩
      have hlOK : bufLineOK l := by
        refine ⟨hl.1, hl.2.1, h2, Bool.eq_false_iff.mpr h1, ?_⟩
        by_cases h4 : isHeadingLine (trimLeft l) = true
        · exact absurd (hl.2.2 h4) h1
        · exact Bool.eq_false_iff.mpr h4
      rcases hbuf with h3 | ⟨ls, rfl, hne, hfacts⟩
      · subst h3
        refine ⟨[l], by simp [intercalateNl], by simp, ?_⟩
        intro l2 hl2
        rcases List.mem_cons.mp hl2 with h4 | h4
        · exact h4 ▸ hlOK
        · exact absurd h4 (List.not_mem_nil l2)
      · have h4 : intercalateNl ls ≠ [] := by
          rcases List.exists_cons_of_ne_nil hne with ⟨l0, t, rfl⟩
          rcases (trim_ne_nil_iff l0).mp
            ((hfacts l0 (List.mem_cons_self l0 t)).2.2.1) with ⟨c, hc, hw⟩
          intro hnil
          have hmem := mem_intercalateNl_of_mem (l0 :: t) l0 c (List.mem_cons_self l0 t) hc
          rw [hnil] at hmem
          exact absurd hmem (List.not_mem_nil c)
        refine ⟨ls ++ [l], ?_, by simp, ?_⟩
        · rw [intercalateNl_append_singleton ls l hne, if_neg h4]
          simp
        · intro l2 hl2
          rcases List.mem_append.mp hl2 with h4 | h4
          · exact hfacts l2 h4
          · rcases List.mem_cons.mp h4 with h5 | h5
            · exact h5 ▸ hlOK
            · exact absurd h5 (List.not_mem_nil l2)

theorem scan_good (ls : List Str) (B : List Str) (buf : Str)
    (hls : ∀ l ∈ ls, lineOK l) (hB : ∀ b ∈ B, blockOK b) (hbuf : bufOK buf) :
    (∀ b ∈ (ls.foldl scanStep (B, buf)).1, blockOK b) ∧
      bufOK (ls.foldl scanStep (B, buf)).2 := by
  induction ls generalizing B buf with
  | nil => exact ⟨hB, hbuf⟩
  | cons l ls ih =>
    rw [List.foldl_cons]
    rcases hs : scanStep (B, buf) l with ⟨B1, buf1⟩
    have hgood := scanStep_good B buf l hB hbuf (hls l (List.mem_cons_self l ls))
    rw [hs] at hgood
    exact ih B1 buf1 (fun l2 hl2 => hls l2 (List.mem_cons_of_mem l hl2)) hgood.1 hgood.2

theorem cr_not_mem_normalize (s : Str) : '\r' ∉ normalizeNewlines s := by
  induction s using normalizeNewlines.induct with
  | case1 => simp [normalizeNewlines]
  | case2 c =>
    by_cases hc : c = '\r'
    · simp [normalizeNewlines, hc]
    · simp only [normalizeNewlines, if_neg hc, List.mem_singleton]
      exact fun h => hc h.symm
  | case3 rest ih =>
    simp only [normalizeNewlines, if_pos rfl]
    intro h
    rcases List.mem_cons.mp h with h1 | h1
    · exact absurd h1 (by decide)
    · exact ih h1
  | case4 c2 rest hne ih =>
    simp only [normalizeNewlines, if_pos rfl, if_neg hne]
    intro h
    rcases List.mem_cons.mp h with h1 | h1
    · exact absurd h1 (by decide)
    · exact ih h1
  | case5 c c2 rest hne ih =>
    rw [normalize_cons_ne c (c2 :: rest) hne]
    intro h
    rcases List.mem_cons.mp h with h1 | h1
    · exact hne h1.symm
    · exact ih h1

/-- Equation for `splitIntoBlocks` with its `let`s spelled out. -/
theorem splitIntoBlocks_eq (T : Str) :
    splitIntoBlocks T =
      (((splitOnChar '\n' (normalizeNewlines T)).foldl scanStep ([], [])).1 ++
        flushT ((splitOnChar '\n' (normalizeNewlines T)).foldl scanStep ([], [])).2).filter
        (fun b => !b.isEmpty) := rfl

/-- Under the no-hidden-heading hypothesis, every block emitted by
`splitIntoBlocks` is nonempty, carriage-return free, and re-segments to
itself. -/
theorem segment_blocks_good (T : Str)
    (hgood : ∀ l ∈ splitOnChar '\n' (normalizeNewlines T),
      isHeadingLine (trimLeft l) = true → isHeadingLine l = true) :
    ∀ b ∈ splitIntoBlocks T, blockOK b := by
  intro b hb
  have hls : ∀ l ∈ splitOnChar '\n' (normalizeNewlines T), lineOK l := by
    intro l hl
    refine ⟨not_mem_of_mem_splitOnChar '\n' _ l hl, ?_, hgood l hl⟩
    intro hm
    exact cr_not_mem_normalize T (mem_of_mem_splitOnChar '\n' _ l '\r' hl hm)
  have hscan := scan_good (splitOnChar '\n' (normalizeNewlines T)) [] [] hls
    (fun b2 hb2 => absurd hb2 (List.not_mem_nil b2)) (Or.inl rfl)
  rw [splitIntoBlocks_eq] at hb
  rcases hs : (splitOnChar '\n' (normalizeNewlines T)).foldl scanStep ([], []) with ⟨B1, buf1⟩
  rw [hs] at hb hscan
  have hb2 := List.mem_of_mem_filter hb
  rcases List.mem_append.mp hb2 with h1 | h1
  · exact hscan.1 b h1
  · exact blockOK_flushT buf1 hscan.2 b h1

theorem mem_joinBlocks (L : List Str) (c : Char) (h : c ∈ joinBlocks L) :
    c = '\n' ∨ ∃ b ∈ L, c ∈ b := by
  induction L with
  | nil => exact absurd h (List.not_mem_nil c)
  | cons x t ih =>
    cases t with
    | nil => exact Or.inr ⟨x, List.mem_cons_self x [], h⟩
    | cons y t2 =>
      rcases List.mem_append.mp h with h1 | h1
      · exact Or.inr ⟨x, List.mem_cons_self x _, h1⟩
      · rcases List.mem_cons.mp h1 with h2 | h2
        · exact Or.inl h2
        · rcases List.mem_cons.mp h2 with h3 | h3
          · exact Or.inl h3
          · rcases ih h3 with h4 | ⟨b, hb, hcb⟩
            · exact Or.inl h4
            · exact Or.inr ⟨b, List.mem_cons_of_mem x hb, hcb⟩

/-- A blank line flushes the buffer (using that a nonempty buffer never has
blank-only content). -/
theorem scanStep_blank_flush (B : List Str) (buf : Str) (h : BufNE buf) :
    scanStep (B, buf) [] = (B ++ flushT buf, []) := by
  unfold scanStep flushT
  rw [if_neg (by simp [isHeadingLine]), if_pos trim_nil]
  by_cases ht : trim buf = []
  · rcases h with h1 | h1
    · subst h1
      simp [trim_nil]
    · exact absurd ht h1
  · simp [ht]

theorem segment_join_blocks (L : List Str) (h : ∀ b ∈ L, blockOK b) :
    splitIntoBlocks (joinBlocks L) = L := by
  induction L with
  | nil => rfl
  | cons b L ih =>
    cases L with
    | nil => exact (h b (List.mem_cons_self b [])).2.2
    | cons b2 t =>
      have hb := h b (List.mem_cons_self b _)
      have hrest : ∀ x ∈ b2 :: t, blockOK x := fun x hx => h x (List.mem_cons_of_mem b hx)
      have ihr := ih hrest
      have hrb : '\r' ∉ b := hb.2.1
      have hrj : '\r' ∉ joinBlocks (b2 :: t) := by
        intro hm
        rcases mem_joinBlocks _ '\r' hm with h1 | ⟨x, hx, hcx⟩
        · exact absurd h1 (by decide)
        · exact (hrest x hx).2.1 hcx
      have hrall : '\r' ∉ b ++ '\n' :: '\n' :: joinBlocks (b2 :: t) := by
        intro hm
        rcases List.mem_append.mp hm with h1 | h1
        · exact hrb h1
        · rcases List.mem_cons.mp h1 with h2 | h2
          · exact absurd h2 (by decide)
          · rcases List.mem_cons.mp h2 with h3 | h3
            · exact absurd h3 (by decide)
            · exact hrj h3
      have hjoin : joinBlocks (b :: b2 :: t) = b ++ '\n' :: '\n' :: joinBlocks (b2 :: t) := rfl
      rw [splitIntoBlocks_eq, hjoin, normalize_eq_self _ hrall,
        splitOnChar_append '\n' b ('\n' :: joinBlocks (b2 :: t)), splitOnChar_cons_self,
        List.foldl_append]
      rcases hsb : (splitOnChar '\n' b).foldl scanStep ([], []) with ⟨Bb, bufb⟩
      have hne : BufNE bufb := by
        have := scan_buf_ne (splitOnChar '\n' b) [] [] (Or.inl rfl)
        rw [hsb] at this
        exact this
      rw [List.foldl_cons, scanStep_blank_flush Bb bufb hne, scan_shift]
      rcases hsr : (splitOnChar '\n' (joinBlocks (b2 :: t))).foldl scanStep ([], [])
        with ⟨Br, bufr⟩
      have hsegb : (Bb ++ flushT bufb).filter (fun x => !x.isEmpty) = [b] := by
        have hx := hb.2.2
        rw [splitIntoBlocks_eq, normalize_eq_self b hrb, hsb] at hx
        exact hx
      have hsegr : (Br ++ flushT bufr).filter (fun x => !x.isEmpty) = b2 :: t := by
        have hx := ihr
        rw [splitIntoBlocks_eq, normalize_eq_self _ hrj, hsr] at hx
        exact hx
      have hre : ((Bb ++ flushT bufb) ++ Br) ++ flushT bufr =
          (Bb ++ flushT bufb) ++ (Br ++ flushT bufr) := by simp
      rw [hre, List.filter_append, hsegb, hsegr]
      rfl

theorem any_beq_iff_mem (m : List (BlockId × Str)) (k : BlockId) :
    m.any (fun p => p.1 == k) = true ↔ k ∈ docKeys m := by
  rw [List.any_eq_true]
  unfold docKeys
  rw [List.mem_map]
  constructor
  · rintro ⟨p, hp, he⟩
    exact ⟨p, hp, by simpa using he⟩
  · rintro ⟨p, hp, he⟩
    exact ⟨p, hp, by simpa using he⟩

theorem docKeys_setD (m : List (BlockId × Str)) (k : BlockId) (v : Str) :
    docKeys (setD m k v) =
      if k ∈ docKeys m then docKeys m else docKeys m ++ [k] := by
  unfold setD
  by_cases h : m.any (fun p => p.1 == k) = true
  · rw [if_pos h, if_pos ((any_beq_iff_mem m k).mp h)]
    unfold docKeys
    rw [List.map_map]
    refine List.map_congr_left ?_
    intro p _
    by_cases hp : p.1 = k
    · simp [hp]
    · simp [hp]
  · rw [if_neg h, if_neg (fun hm => h ((any_beq_iff_mem m k).mpr hm))]
    unfold docKeys
    simp

theorem mem_docKeys_setD (m : List (BlockId × Str)) (k a : BlockId) (v : Str) :
    a ∈ docKeys (setD m k v) ↔ a ∈ docKeys m ∨ a = k := by
  rw [docKeys_setD]
  by_cases h : k ∈ docKeys m
  · rw [if_pos h]
    constructor
    · exact Or.inl
    · rintro (h1 | h1)
      · exact h1
      · exact h1 ▸ h
  · rw [if_neg h]
    simp

theorem nodup_docKeys_setD (m : List (BlockId × Str)) (k : BlockId) (v : Str)
    (h : (docKeys m).Nodup) : (docKeys (setD m k v)).Nodup := by
  rw [docKeys_setD]
  by_cases hm : k ∈ docKeys m
  · rw [if_pos hm]
    exact h
  · rw [if_neg hm]
    rw [List.nodup_append]
    refine ⟨h, List.nodup_singleton k, ?_⟩
    intro a ha hb
    rw [List.mem_singleton] at hb
    exact hm (hb ▸ ha)

theorem mem_docKeys_foldl_setD (ps : List (BlockId × Str)) (m : List (BlockId × Str))
    (a : BlockId) :
    a ∈ docKeys (ps.foldl (fun m2 p => setD m2 p.1 p.2) m) ↔
      a ∈ docKeys m ∨ a ∈ ps.map Prod.fst := by
  induction ps generalizing m with
  | nil => simp
  | cons p ps ih =>
    rw [List.foldl_cons, ih, mem_docKeys_setD, List.map_cons, List.mem_cons]
    tauto

theorem nodup_docKeys_foldl_setD (ps : List (BlockId × Str)) (m : List (BlockId × Str))
    (h : (docKeys m).Nodup) :
    (docKeys (ps.foldl (fun m2 p => setD m2 p.1 p.2) m)).Nodup := by
  induction ps generalizing m with
  | nil => exact h
  | cons p ps ih => exact ih _ (nodup_docKeys_setD m p.1 p.2 h)

theorem docKeys_delD (m : List (BlockId × Str)) (k : BlockId) :
    docKeys (delD m k) = (docKeys m).filter (fun a => a != k) := by
  unfold delD docKeys
  induction m with
  | nil => rfl
  | cons p m ih =>
    rw [List.map_cons, List.filter_cons, List.filter_cons]
    by_cases hp : (p.1 != k) = true
    · rw [if_pos hp, if_pos hp, List.map_cons, ih]
    · rw [if_neg hp, if_neg hp, ih]

theorem mem_docKeys_delD (m : List (BlockId × Str)) (k a : BlockId) :
    a ∈ docKeys (delD m k) ↔ a ∈ docKeys m ∧ a ≠ k := by
  rw [docKeys_delD, List.mem_filter]
  simp

theorem nodup_docKeys_delD (m : List (BlockId × Str)) (k : BlockId)
    (h : (docKeys m).Nodup) : (docKeys (delD m k)).Nodup := by
  rw [docKeys_delD]
  exact h.filter _

theorem lookupD_setD_self (m : List (BlockId × Str)) (k : BlockId) (v : Str) :
    lookupD (setD m k v) k = some v := by
  unfold setD lookupD
  by_cases h : m.any (fun p => p.1 == k) = true
  · rw [if_pos h]
    induction m with
    | nil => simp at h
    | cons p m ih =>
      rw [List.map_cons]
      by_cases hp : p.1 = k
      · rw [List.find?_cons_of_pos _ (by simp [hp])]
        simp [hp]
      · rw [List.find?_cons_of_neg _ (by simp [hp])]
        simp only [List.any_cons, Bool.or_eq_true_iff] at h
        rcases h with h1 | h1
        · exact absurd (by simpa using h1) hp
        · exact ih h1
  · rw [if_neg h]
    induction m with
    | nil =>
      rw [List.nil_append, List.find?_cons_of_pos _ (by simp)]
      rfl
    | cons p m ih =>
      simp only [List.any_cons, Bool.or_eq_true_iff, not_or] at h
      rw [List.cons_append, List.find?_cons_of_neg _ (by simpa using h.1)]
      exact ih (by simpa using h.2)

theorem lookupD_setD_other (m : List (BlockId × Str)) (k k' : BlockId) (v : Str)
    (h : k' ≠ k) : lookupD (setD m k' v) k = lookupD m k := by
  unfold setD lookupD
  have hkk : ¬k = k' := fun he => h he.symm
  by_cases hm : m.any (fun p => p.1 == k') = true
  · rw [if_pos hm]
    clear hm
    induction m with
    | nil => rfl
    | cons p m ih =>
      rw [List.map_cons]
      by_cases hp : p.1 = k
      · rw [List.find?_cons_of_pos _ (by simp [hp, hkk]),
          List.find?_cons_of_pos _ (by simp [hp])]
        simp [hp, hkk]
      · by_cases hpk : p.1 = k'
        · rw [List.find?_cons_of_neg _ (by simp [hpk, h]),
            List.find?_cons_of_neg _ (by simp [hp])]
          exact ih
        · rw [List.find?_cons_of_neg _ (by simp [hpk, hp]),
            List.find?_cons_of_neg _ (by simp [hp])]
          exact ih
  · rw [if_neg hm]
    clear hm
    induction m with
    | nil =>
      rw [List.nil_append, List.find?_cons_of_neg _ (by simp [h])]
    | cons p m ih =>
      by_cases hp : p.1 = k
      · rw [List.cons_append, List.find?_cons_of_pos _ (by simp [hp]),
          List.find?_cons_of_pos _ (by simp [hp])]
      · rw [List.cons_append, List.find?_cons_of_neg _ (by simp [hp]),
          List.find?_cons_of_neg _ (by simp [hp])]
        exact ih

theorem lookupD_foldl_setD_untouched (ps : List (BlockId × Str))
    (m : List (BlockId × Str)) (k : BlockId) (h : ∀ p ∈ ps, p.1 ≠ k) :
    lookupD (ps.foldl (fun m2 p => setD m2 p.1 p.2) m) k = lookupD m k := by
  induction ps generalizing m with
  | nil => rfl
  | cons p ps ih =>
    rw [List.foldl_cons, ih _ (fun p2 hp2 => h p2 (List.mem_cons_of_mem p hp2)),
      lookupD_setD_other m k p.1 p.2 (h p (List.mem_cons_self p ps))]

theorem findIdx?_beq_spec (l : List BlockId) (id : BlockId) (idx : Nat)
    (h : l.findIdx? (fun x => x == id) = some idx) :
    idx < l.length ∧ l.getD idx 0 = id := by
  rcases List.findIdx?_eq_some_iff_getElem.mp h with ⟨h1, h2, h3⟩
  refine ⟨h1, ?_⟩
  rw [List.getD_eq_getElem l 0 h1]
  simpa using h2

theorem order_decomp (l : List BlockId) (idx : Nat) (h : idx < l.length) :
    l = l.take idx ++ l.getD idx 0 :: l.drop (idx + 1) := by
  conv_lhs => rw [← List.take_append_drop idx l]
  rw [List.drop_eq_getElem_cons h, List.getD_eq_getElem l 0 h]

/-- Shape facts extracted from `Nodup (A ++ x :: C)`. -/
theorem nodup_middle_facts (A C : List BlockId) (x : BlockId)
    (h : (A ++ x :: C).Nodup) :
    A.Nodup ∧ C.Nodup ∧ x ∉ A ∧ x ∉ C ∧ (A ++ C).Nodup := by
  rcases List.nodup_append.mp h with ⟨hA, hxC, hdisj⟩
  rcases List.nodup_cons.mp hxC with ⟨hxnotC, hC⟩
  refine ⟨hA, hC, fun hxA => hdisj hxA (List.mem_cons_self x C), hxnotC, ?_⟩
  rw [List.nodup_append]
  exact ⟨hA, hC, fun a haA haC => hdisj haA (List.mem_cons_of_mem x haC)⟩

theorem applyDelete_inv (st : DocState) (id : BlockId) (hinv : Inv st)
    (st' : DocState) (foc : Option (BlockId × Bool))
    (h : applyDelete st id = some (st', foc)) : Inv st' := by
  unfold applyDelete at h
  rcases hfind : st.order.findIdx? (fun x => x == id) with _ | idx
  · rw [hfind] at h
    cases h
  · rw [hfind] at h
    simp only [Option.some.injEq, Prod.mk.injEq] at h
    obtain ⟨rfl, -⟩ := h
    obtain ⟨hlt, hget⟩ := findIdx?_beq_spec st.order id idx hfind
    obtain ⟨hndo, hndk, hsub1, hsub2⟩ := hinv
    have hdec := order_decomp st.order idx hlt
    rw [hget] at hdec
    have hndo2 := hndo
    rw [hdec] at hndo2
    obtain ⟨hA, hC, hidA, hidC, hAC⟩ := nodup_middle_facts _ _ _ hndo2
    refine ⟨hAC, nodup_docKeys_delD _ _ hndk, ?_, ?_⟩
    · intro a ha
      rw [mem_docKeys_delD]
      rcases List.mem_append.mp ha with h1 | h1
      · exact ⟨hsub1 a ((List.take_sublist idx st.order).subset h1),
          fun he => hidA (he ▸ h1)⟩
      · exact ⟨hsub1 a ((List.drop_sublist (idx + 1) st.order).subset h1),
          fun he => hidC (he ▸ h1)⟩
    · intro a ha
      rw [mem_docKeys_delD] at ha
      have hao := hsub2 a ha.1
      rw [hdec] at hao
      rcases List.mem_append.mp hao with h1 | h1
      · exact List.mem_append_left _ h1
      · rcases List.mem_cons.mp h1 with h2 | h2
        · exact absurd h2 ha.2
        · exact List.mem_append_right _ h2

theorem applyMerge_inv (st : DocState) (id : BlockId) (hinv : Inv st)
    (st' : DocState) (foc : BlockId) (caret : Nat)
    (h : applyMerge st id = some (st', foc, caret)) : Inv st' := by
  unfold applyMerge at h
  rcases hfind : st.order.findIdx? (fun x => x == id) with _ | idx
  · rw [hfind] at h
    cases h
  · rw [hfind] at h
    by_cases hz : idx = 0
    · simp only [if_pos hz] at h
      exact Option.noConfusion h
    · simp only [if_neg hz, Option.some.injEq, Prod.mk.injEq] at h
      obtain ⟨rfl, -, -⟩ := h
      obtain ⟨hlt, hget⟩ := findIdx?_beq_spec st.order id idx hfind
      obtain ⟨hndo, hndk, hsub1, hsub2⟩ := hinv
      have hdec := order_decomp st.order idx hlt
      rw [hget] at hdec
      have hndo2 := hndo
      rw [hdec] at hndo2
      obtain ⟨hA, hC, hidA, hidC, hAC⟩ := nodup_middle_facts _ _ _ hndo2
      have hprevlt : idx - 1 < st.order.length := lt_of_le_of_lt (Nat.sub_le idx 1) hlt
      have hprevmem : st.order.getD (idx - 1) 0 ∈ st.order := by
        rw [List.getD_eq_getElem st.order 0 hprevlt]
        exact List.getElem_mem hprevlt
      have hprevkeys : st.order.getD (idx - 1) 0 ∈ docKeys st.doc :=
        hsub1 _ hprevmem
      refine ⟨hAC, nodup_docKeys_delD _ _ (nodup_docKeys_setD _ _ _ hndk), ?_, ?_⟩
      · intro a ha
        rw [mem_docKeys_delD, mem_docKeys_setD]
        rcases List.mem_append.mp ha with h1 | h1
        · exact ⟨Or.inl (hsub1 a ((List.take_sublist idx st.order).subset h1)),
            fun he => hidA (he ▸ h1)⟩
        · exact ⟨Or.inl (hsub1 a ((List.drop_sublist (idx + 1) st.order).subset h1)),
            fun he => hidC (he ▸ h1)⟩
      · intro a ha
        rw [mem_docKeys_delD, mem_docKeys_setD] at ha
        have hak : a ∈ docKeys st.doc := by
          rcases ha.1 with h1 | h1
          · exact h1
          · exact h1 ▸ hprevkeys
        have hao := hsub2 a hak
        rw [hdec] at hao
        rcases List.mem_append.mp hao with h1 | h1
        · exact List.mem_append_left _ h1
        · rcases List.mem_cons.mp h1 with h2 | h2
          · exact absurd h2 ha.2
          · exact List.mem_append_right _ h2

theorem splitHalves_fst_ne_nil (bm : Str) (k : Nat) : (splitHalves bm k).1 ≠ [] := by
  by_cases h : (splitIntoBlocks (bm.take k)).isEmpty = true
  · simp [splitHalves, h]
  · have h2 : splitIntoBlocks (bm.take k) ≠ [] := by
      intro he
      exact h (by rw [he]; rfl)
    simp [splitHalves, h, h2]

theorem splitHalves_snd_ne_nil (bm : Str) (k : Nat) : (splitHalves bm k).2 ≠ [] := by
  by_cases h : (splitIntoBlocks (bm.drop k)).isEmpty = true
  · simp [splitHalves, h]
  · have h2 : splitIntoBlocks (bm.drop k) ≠ [] := by
      intro he
      exact h (by rw [he]; rfl)
    simp [splitHalves, h, h2]

theorem applySplit_inv (st : DocState) (id : BlockId) (bm : Str) (k : Nat)
    (fresh : List BlockId) (hinv : Inv st)
    (hfr1 : fresh.Nodup) (hfr2 : ∀ f ∈ fresh, f ∉ st.order) (hfr3 : id ∉ fresh)
    (st' : DocState) (foc : BlockId)
    (h : applySplit st id bm k fresh = some (st', foc)) : Inv st' := by
  unfold applySplit at h
  rcases hfind : st.order.findIdx? (fun x => x == id) with _ | idx
  · rw [hfind] at h
    exact Option.noConfusion h
  · rw [hfind] at h
    simp only [Option.some.injEq, Prod.mk.injEq] at h
    obtain ⟨rfl, -⟩ := h
    obtain ⟨hlt, hget⟩ := findIdx?_beq_spec st.order id idx hfind
    obtain ⟨hndo, hndk, hsub1, hsub2⟩ := hinv
    have hdec := order_decomp st.order idx hlt
    rw [hget] at hdec
    have hndo2 := hndo
    rw [hdec] at hndo2
    obtain ⟨hA, hC, hidA, hidC, hAC⟩ := nodup_middle_facts _ _ _ hndo2
    have hACd : (List.take idx st.order).Disjoint (List.drop (idx + 1) st.order) :=
      (List.nodup_append.mp hAC).2.2
    set bb := (splitHalves bm k).1 with hbb
    set ab := (splitHalves bm k).2 with hab
    set tk := fresh.take (bb.length - 1 + ab.length) with htk
    have htksub : ∀ a ∈ tk, a ∈ fresh :=
      fun a ha => (List.take_sublist _ fresh).subset ha
    have hNids : (id :: tk).Nodup := by
      rw [List.nodup_cons]
      exact ⟨fun hm => hfr3 (htksub id hm), hfr1.sublist (List.take_sublist _ fresh)⟩
    have hnew_mem : ∀ a ∈ id :: tk, a = id ∨ a ∉ st.order := by
      intro a ha
      rcases List.mem_cons.mp ha with h1 | h1
      · exact Or.inl h1
      · exact Or.inr (hfr2 a (htksub a h1))
    have hlen : (id :: tk).length ≤ (bb ++ ab).length := by
      rw [List.length_cons, List.length_append, htk]
      have h1 : (fresh.take (bb.length - 1 + ab.length)).length ≤
          bb.length - 1 + ab.length := by
        rw [List.length_take]
        exact Nat.min_le_left _ _
      have h2 : 1 ≤ bb.length := by
        rcases List.exists_cons_of_ne_nil (splitHalves_fst_ne_nil bm k) with ⟨x, t, hx⟩
        rw [← hbb] at hx
        rw [hx]
        simp
      omega
    have hzipkeys : ((id :: tk).zip (bb ++ ab)).map Prod.fst = id :: tk :=
      List.map_fst_zip _ _ hlen
    have hmemkeys : ∀ a, a ∈ docKeys (((id :: tk).zip (bb ++ ab)).foldl
        (fun m2 p => setD m2 p.1 p.2) st.doc) ↔ a ∈ docKeys st.doc ∨ a ∈ id :: tk := by
      intro a
      rw [mem_docKeys_foldl_setD, hzipkeys]
    simp only [List.append_assoc]
    refine ⟨?_, nodup_docKeys_foldl_setD _ _ hndk, ?_, ?_⟩
    · -- Nodup (A ++ (id :: tk) ++ C)
      rw [List.nodup_append]
      refine ⟨hA, ?_, ?_⟩
      · rw [List.nodup_append]
        refine ⟨hNids, hC, ?_⟩
        intro a ha hc
        rcases hnew_mem a ha with h1 | h1
        · exact hidC (h1 ▸ hc)
        · exact h1 ((List.drop_sublist (idx + 1) st.order).subset hc)
      · intro a ha hc
        rcases List.mem_append.mp hc with h1 | h1
        · rcases hnew_mem a h1 with h2 | h2
          · exact hidA (h2 ▸ ha)
          · exact h2 ((List.take_sublist idx st.order).subset ha)
        · exact hACd ha h1
    · intro a ha
      rw [hmemkeys]
      rcases List.mem_append.mp ha with h1 | h1
      · exact Or.inl (hsub1 a ((List.take_sublist idx st.order).subset h1))
      · rcases List.mem_append.mp h1 with h2 | h2
        · exact Or.inr h2
        · exact Or.inl (hsub1 a ((List.drop_sublist (idx + 1) st.order).subset h2))
    · intro a ha
      rw [hmemkeys] at ha
      rcases ha with h1 | h1
      · have hao := hsub2 a h1
        rw [hdec] at hao
        rcases List.mem_append.mp hao with h2 | h2
        · exact List.mem_append_left _ h2
        · rcases List.mem_cons.mp h2 with h3 | h3
          · exact List.mem_append_right _
              (List.mem_append_left _ (h3 ▸ List.mem_cons_self id tk))
          · exact List.mem_append_right _ (List.mem_append_right _ h3)
      · exact List.mem_append_right _ (List.mem_append_left _ h1)

theorem takeWhile_append_not (p : Char → Bool) (A : Str) (y : Char) (B : Str)
    (hA : ∀ a ∈ A, p a = true) (hy : p y = false) :
    (A ++ y :: B).takeWhile p = A := by
  induction A with
  | nil => simp [List.takeWhile_cons, hy]
  | cons a A ih =>
    rw [List.cons_append, List.takeWhile_cons, if_pos (hA a (List.mem_cons_self a A)),
      ih (fun a2 ha2 => hA a2 (List.mem_cons_of_mem a ha2))]

theorem digitsMarker_append (x δ : Str) (h : (digitsMarker x).isSome = true) :
    (digitsMarker (x ++ δ)).isSome = true := by
  unfold digitsMarker at h
  split at h
  · simp at h
  · rename_i d ds r3 htake hdrop
    have hdropne : ¬(x.dropWhile Char.isDigit).isEmpty = true := by
      rw [hdrop]
      simp
    have hdrop2 : (x ++ δ).dropWhile Char.isDigit = '.' :: ' ' :: (r3 ++ δ) := by
      rw [List.dropWhile_append, if_neg hdropne, hdrop]
      rfl
    have htake2 : (x ++ δ).takeWhile Char.isDigit = d :: ds := by
      conv_lhs => rw [← List.takeWhile_append_dropWhile Char.isDigit x, hdrop, htake]
      rw [List.append_assoc, List.cons_append]
      refine takeWhile_append_not Char.isDigit (d :: ds) '.' (' ' :: r3 ++ δ) ?_ (by decide)
      intro a ha
      rw [← htake] at ha
      exact List.mem_takeWhile_imp ha
    unfold digitsMarker
    rw [htake2, hdrop2]
    rfl
  · simp at h

theorem listMarkerSplitDot_nil : listMarkerSplitDot [] = none := rfl

theorem listMarkerSplitDot_append (r δ : Str)
    (h : (listMarkerSplitDot r).isSome = true) :
    (listMarkerSplitDot (r ++ δ)).isSome = true := by
  rcases r with _ | ⟨c1, r1⟩
  · rw [listMarkerSplitDot_nil] at h
    simp at h
  rcases r1 with _ | ⟨c2, rr⟩
  · by_cases hd : Char.isDigit c1 = true
    · simp [listMarkerSplitDot, digitsMarker, taskMarkerDot, List.takeWhile_cons,
        List.dropWhile_cons, hd] at h
    · simp [listMarkerSplitDot, digitsMarker, taskMarkerDot, List.takeWhile_cons,
        List.dropWhile_cons, hd] at h
  · rw [List.cons_append, List.cons_append]
    simp only [listMarkerSplitDot] at h ⊢
    by_cases hb : ((c1 == '-' || c1 == '*' || c1 == '+') && (c2 == ' ')) = true
    · rw [if_pos hb] at h ⊢
      simp
    · rw [if_neg hb] at h ⊢
      rcases hdm : digitsMarker (c1 :: c2 :: rr) with _ | m
      · rw [hdm] at h
        simp only at h
        -- h comes from the task alternative: its pattern forces a "- " start,
        -- which contradicts the failed bullet test
        unfold taskMarkerDot at h
        split at h
        · rename_i heq
          rw [show c1 = '-' from (List.cons_eq_cons.mp heq).1,
            show c2 = ' ' from (List.cons_eq_cons.mp (List.cons_eq_cons.mp heq).2).1] at hb
          simp at hb
        · simp at h
      · have h2 := digitsMarker_append (c1 :: c2 :: rr) δ (by rw [hdm]; rfl)
        rcases hdm2 : digitsMarker (c1 :: c2 :: (rr ++ δ)) with _ | m2
        · simp only [List.cons_append] at h2
          rw [hdm2] at h2
          simp at h2
        · rfl

theorem isListLineDot_append (γ δ : Str) (h : isListLineDot γ = true) :
    isListLineDot (γ ++ δ) = true := by
  unfold isListLineDot at h ⊢
  have hne : ¬(γ.dropWhile isWsChar).isEmpty = true := by
    intro he
    rw [List.isEmpty_iff] at he
    rw [he, listMarkerSplitDot_nil] at h
    simp at h
  rw [List.dropWhile_append, if_neg hne]
  exact listMarkerSplitDot_append _ δ h

theorem isListBlockDot_single (s : Str) (hn : '\n' ∉ s) :
    isListBlockDot s = isListLineDot s := by
  unfold isListBlockDot
  rw [splitOnChar_eq_singleton '\n' s hn]
  simp

theorem mergeAll_pair (x y : Str) : mergeAll [x, y] = mergeTexts x y := rfl

theorem joinAllNl_append (A B : List Str) :
    joinAllNl (A ++ B) = joinAllNl A ++ joinAllNl B := by
  induction A with
  | nil => rfl
  | cons x A ih => simp [joinAllNl, ih]

theorem intercalateNl_ne_nil_of_last (L : List Str) (llast : Str)
    (hlast : L.getLast? = some llast) (hne : llast ≠ []) : intercalateNl L ≠ [] := by
  induction L with
  | nil => simp at hlast
  | cons x t ih =>
    cases t with
    | nil =>
      rw [List.getLast?_singleton] at hlast
      injection hlast with hlast
      subst hlast
      exact hne
    | cons y t2 =>
      rw [List.getLast?_cons_cons] at hlast
      rw [intercalateNl_cons_cons]
      intro he
      rcases List.append_eq_nil.mp he with ⟨-, h2⟩
      exact List.cons_ne_nil _ _ h2

theorem trimRight_joinAllNl (L : List Str) (llast : Str)
    (hlast : L.getLast? = some llast) (hne : llast ≠ [])
    (hst : trimRight llast = llast) :
    trimRight (joinAllNl L) = intercalateNl L := by
  induction L with
  | nil => simp at hlast
  | cons x t ih =>
    cases t with
    | nil =>
      rw [List.getLast?_singleton] at hlast
      injection hlast with hlast
      subst hlast
      show trimRight (x ++ ['\n']) = intercalateNl [x]
      rw [trimRight_append_ws x '\n' (by decide)]
      exact hst
    | cons y t2 =>
      rw [List.getLast?_cons_cons] at hlast
      have hJ := ih hlast
      have hJne : trimRight (joinAllNl (y :: t2)) ≠ [] := by
        rw [hJ]
        exact intercalateNl_ne_nil_of_last _ llast hlast hne
      have hcons : trimRight ('\n' :: joinAllNl (y :: t2)) =
          '\n' :: trimRight (joinAllNl (y :: t2)) := by
        have := trimRight_append ['\n'] (joinAllNl (y :: t2)) hJne
        simpa using this
      show trimRight (x ++ '\n' :: joinAllNl (y :: t2)) = _
      rw [trimRight_append x ('\n' :: joinAllNl (y :: t2)) (by rw [hcons]; simp),
        hcons, hJ, intercalateNl_cons_cons]

theorem jsSliceTo_natCast (s : Str) (n : Nat) : jsSliceTo s (n : Int) = s.take n := by
  unfold jsSliceTo
  rw [if_neg (by simp)]
  simp

theorem jsSliceFrom_natCast (s : Str) (n : Nat) : jsSliceFrom s (n : Int) = s.drop n := by
  unfold jsSliceFrom
  rw [if_neg (by simp)]
  simp

theorem listEnter_atEnd (bm cl : Str) (cp : Nat) (i cs : Nat)
    (indent marker content llast : Str)
    (hfind : (splitOnChar '\n' bm).findIdx? (fun l => trim l == trim cl) = some i)
    (hparse : parseListLine ((splitOnChar '\n' bm).getD i []) =
      some (indent, marker, content))
    (hcs : jsIndexOf ((splitOnChar '\n' bm).getD i []) (trim content) = (cs : Int))
    (hend : cs + (trim content).length ≤ cp)
    (hlast : ((splitOnChar '\n' bm).take i ++ (splitOnChar '\n' bm).getD i [] ::
      (indent ++ marker ++ nbspStr) :: (splitOnChar '\n' bm).drop (i + 1)).getLast? =
      some llast)
    (hlne : llast ≠ []) (hltr : trimRight llast = llast) :
    listEnter bm cl cp = some (intercalateNl ((splitOnChar '\n' bm).take i ++
      (splitOnChar '\n' bm).getD i [] :: (indent ++ marker ++ nbspStr) ::
        (splitOnChar '\n' bm).drop (i + 1))) := by
  simp only [listEnter]
  rw [hfind]
  simp only [hparse]
  rw [if_pos (by rw [hcs]; omega)]
  rw [← trimRight_joinAllNl _ llast hlast hlne hltr]
  congr 1
  rw [joinAllNl_append]
  simp [joinAllNl, List.append_assoc]

theorem listEnter_inside (bm cl : Str) (cp : Nat) (i cs o : Nat)
    (indent marker content llast : Str)
    (hfind : (splitOnChar '\n' bm).findIdx? (fun l => trim l == trim cl) = some i)
    (hparse : parseListLine ((splitOnChar '\n' bm).getD i []) =
      some (indent, marker, content))
    (hcs : jsIndexOf ((splitOnChar '\n' bm).getD i []) (trim content) = (cs : Int))
    (hcp : cp = cs + o) (ho : o < (trim content).length)
    (hlast : ((splitOnChar '\n' bm).take i ++
      (indent ++ marker ++ (trim content).take o) ::
      (indent ++ marker ++ (trim content).drop o) ::
        (splitOnChar '\n' bm).drop (i + 1)).getLast? = some llast)
    (hlne : llast ≠ []) (hltr : trimRight llast = llast) :
    listEnter bm cl cp = some (intercalateNl ((splitOnChar '\n' bm).take i ++
      (indent ++ marker ++ (trim content).take o) ::
      (indent ++ marker ++ (trim content).drop o) ::
        (splitOnChar '\n' bm).drop (i + 1))) := by
  simp only [listEnter]
  rw [hfind]
  simp only [hparse]
  have hoff : (cp : Int) - jsIndexOf ((splitOnChar '\n' bm).getD i []) (trim content) =
      (o : Int) := by
    rw [hcs, hcp]
    push_cast
    ring
  rw [if_neg (by rw [hoff]; omega)]
  rw [hoff, jsSliceTo_natCast, jsSliceFrom_natCast]
  rw [← trimRight_joinAllNl _ llast hlast hlne hltr]
  congr 1
  rw [joinAllNl_append]
  simp [joinAllNl, List.append_assoc]

theorem splitIntoBlocks_nil : splitIntoBlocks [] = [] := rfl

/-- C1 (amended): for a block whose text T is a single line of ordinary
(non-list) content — T contains no newline or carriage-return character and
is not a list block — performing a structural split at offset k and
immediately backward-merging the resulting blocks reproduces T exactly,
provided neither half starts or ends with whitespace.  Both restrictions are
necessary: the segmenter trims each emitted block, so whitespace adjacent to
the split point is lost (see the counterexample), and a multi-line half with
an interior blank line is cut at that blank line by the segmenter, whose
separator the plain-concatenation merge then drops (splitting the text
composed of the letter a, two newlines and the letter b at offset 4 and
merging yields the two-letter text ab). -/
theorem split_merge_inverse_trimmed (T : Str) (k : Nat)
    (hnl : '\n' ∉ T) (hcr : '\r' ∉ T) (hlist : isListBlockDot T = false)
    (hbt : trim (T.take k) = T.take k) (hat : trim (T.drop k) = T.drop k) :
    mergeAll ((splitHalves T k).1 ++ (splitHalves T k).2) = T := by
  have hnlb : '\n' ∉ T.take k := fun hm => hnl ((List.take_sublist k T).subset hm)
  have hnla : '\n' ∉ T.drop k := fun hm => hnl ((List.drop_sublist k T).subset hm)
  have hcrb : '\r' ∉ T.take k := fun hm => hcr ((List.take_sublist k T).subset hm)
  have hcra : '\r' ∉ T.drop k := fun hm => hcr ((List.drop_sublist k T).subset hm)
  have hTd : T.take k ++ T.drop k = T := List.take_append_drop k T
  have hbl : isListBlockDot (T.take k) = false := by
    rw [isListBlockDot_single _ hnlb]
    by_cases h : isListLineDot (T.take k) = true
    · exfalso
      have h2 := isListLineDot_append (T.take k) (T.drop k) h
      rw [hTd] at h2
      rw [isListBlockDot_single T hnl, h2] at hlist
      exact Bool.noConfusion hlist
    · exact Bool.eq_false_iff.mpr h
  by_cases hb : T.take k = []
  · by_cases ha : T.drop k = []
    · have hT : T = [] := by
        rw [← hTd, hb, ha]
        rfl
      subst hT
      have hsh : splitHalves ([] : Str) k = ([[]], [[]]) := by
        unfold splitHalves
        rw [List.take_nil, List.drop_nil]
        rfl
      rw [hsh]
      decide
    · have hsega : splitIntoBlocks (T.drop k) = [T.drop k] :=
        segment_single _ hnla hcra hat ha
      have hsh : splitHalves T k = ([[]], [T.drop k]) := by
        simp only [splitHalves]
        rw [hb, splitIntoBlocks_nil, hsega]
        simp [ha]
      rw [hsh]
      show mergeAll [[], T.drop k] = T
      rw [mergeAll_pair]
      unfold mergeTexts
      rw [if_neg (by simp [(by decide : isListBlockDot ([] : Str) = false)])]
      rw [List.nil_append]
      conv_rhs => rw [← hTd, hb]
      rw [List.nil_append]
  · by_cases ha : T.drop k = []
    · have hsegb : splitIntoBlocks (T.take k) = [T.take k] :=
        segment_single _ hnlb hcrb hbt hb
      have hsh : splitHalves T k = ([T.take k], [[]]) := by
        simp only [splitHalves]
        rw [ha, splitIntoBlocks_nil, hsegb]
        simp [hb]
      rw [hsh]
      show mergeAll [T.take k, []] = T
      rw [mergeAll_pair]
      unfold mergeTexts
      rw [if_neg (by simp [(by decide : isListBlockDot ([] : Str) = false)])]
      rw [List.append_nil]
      conv_rhs => rw [← hTd, ha]
      rw [List.append_nil]
    · have hsegb : splitIntoBlocks (T.take k) = [T.take k] :=
        segment_single _ hnlb hcrb hbt hb
      have hsega : splitIntoBlocks (T.drop k) = [T.drop k] :=
        segment_single _ hnla hcra hat ha
      have hsh : splitHalves T k = ([T.take k], [T.drop k]) := by
        simp only [splitHalves]
        rw [hsegb, hsega]
        simp [hb, ha]
      rw [hsh]
      show mergeAll [T.take k, T.drop k] = T
      rw [mergeAll_pair]
      unfold mergeTexts
      rw [if_neg (by simp [hbl])]
      exact hTd

/-- C1 counterexample: the claim as stated fails — splitting the ordinary
block `"a b"` at offset 2 and backward-merging yields `"ab"`, not `"a b"`:
segmentation trims the whitespace adjacent to the split point. -/
theorem split_merge_inverse_cex :
    mergeAll ((splitHalves (str "a b") 2).1 ++ (splitHalves (str "a b") 2).2) = str "ab" ∧
    mergeAll ((splitHalves (str "a b") 2).1 ++ (splitHalves (str "a b") 2).2) ≠
      str "a b" := by
  constructor
  · decide
  · decide

theorem split_merge_inverse_trimmed_witness :
    mergeAll ((splitHalves (str "ab") 1).1 ++ (splitHalves (str "ab") 1).2) = str "ab" :=
  split_merge_inverse_trimmed (str "ab") 1 (by decide) (by decide) (by decide)
    (by decide) (by decide)

/-- C2: Backspace with the caret at the start of block B (not first in the
ordering sequence, with predecessor A) merges B into A: the merged text is
`A ++ B` unless both are list blocks, in which case one newline is inserted;
B's id is removed from both the mapping and the ordering sequence; edit focus
moves to A and the caret target is A's pre-merge text length. -/
theorem backward_merge_spec (st : DocState) (idx : Nat) (A B : BlockId)
    (hfind : st.order.findIdx? (fun x => x == B) = some idx)
    (hpos : idx ≠ 0)
    (hA : st.order.getD (idx - 1) 0 = A) :
    applyMerge st B = some
      ({ doc := delD (setD st.doc A (mergeTexts ((lookupD st.doc A).getD [])
            ((lookupD st.doc B).getD []))) B,
         order := st.order.take idx ++ st.order.drop (idx + 1) },
        A, ((lookupD st.doc A).getD []).length) ∧
    (isListBlockDot ((lookupD st.doc A).getD []) = true →
      isListBlockDot ((lookupD st.doc B).getD []) = true →
      mergeTexts ((lookupD st.doc A).getD []) ((lookupD st.doc B).getD []) =
        (lookupD st.doc A).getD [] ++ '\n' :: (lookupD st.doc B).getD []) ∧
    (¬(isListBlockDot ((lookupD st.doc A).getD []) = true ∧
        isListBlockDot ((lookupD st.doc B).getD []) = true) →
      mergeTexts ((lookupD st.doc A).getD []) ((lookupD st.doc B).getD []) =
        (lookupD st.doc A).getD [] ++ (lookupD st.doc B).getD []) := by
  refine ⟨?_, ?_, ?_⟩
  · unfold applyMerge
    rw [hfind]
    simp only [if_neg hpos, hA]
  · intro h1 h2
    unfold mergeTexts
    rw [if_pos (by rw [h1, h2]; rfl)]
  · intro h
    unfold mergeTexts
    rw [if_neg (by rw [Bool.and_eq_true]; exact fun h2 => h ⟨h2.1, h2.2⟩)]

theorem backward_merge_spec_witness :
    applyMerge ⟨[(0, str "foo"), (1, str "bar")], [0, 1]⟩ 1 =
      some (⟨[(0, str "foobar")], [0]⟩, 0, 3) := by
  have h := backward_merge_spec ⟨[(0, str "foo"), (1, str "bar")], [0, 1]⟩ 1 0 1
    (by decide) (by decide) (by decide)
  rw [h.1]
  decide

/-- C3 (amended): in a list block, Enter with the caret at or past the end of
the trimmed content of the line keeps the line unchanged and inserts
immediately after it one new line `indent ++ marker ++ "&nbsp;"` — the
"empty" content is the literal placeholder string `"&nbsp;"`, not empty
(see the counterexample for the claim's `["- a", "- b", "- "]` shape). -/
theorem list_continuation_amended (bm cl : Str) (cp : Nat) (i cs : Nat)
    (indent marker content llast : Str)
    (hfind : (splitOnChar '\n' bm).findIdx? (fun l => trim l == trim cl) = some i)
    (hparse : parseListLine ((splitOnChar '\n' bm).getD i []) =
      some (indent, marker, content))
    (hcs : jsIndexOf ((splitOnChar '\n' bm).getD i []) (trim content) = (cs : Int))
    (hend : cs + (trim content).length ≤ cp)
    (hlast : ((splitOnChar '\n' bm).take i ++ (splitOnChar '\n' bm).getD i [] ::
      (indent ++ marker ++ nbspStr) :: (splitOnChar '\n' bm).drop (i + 1)).getLast? =
      some llast)
    (hlne : llast ≠ []) (hltr : trimRight llast = llast) :
    listEnter bm cl cp = some (intercalateNl ((splitOnChar '\n' bm).take i ++
      (splitOnChar '\n' bm).getD i [] :: (indent ++ marker ++ nbspStr) ::
        (splitOnChar '\n' bm).drop (i + 1))) :=
  listEnter_atEnd bm cl cp i cs indent marker content llast hfind hparse hcs hend
    hlast hlne hltr

/-- C3 counterexample: for the list block `"- a\n- b"` with the caret at the
end of `"- b"`, Enter produces the lines `["- a", "- b", "- &nbsp;"]`, not the
claimed `["- a", "- b", "- "]`. -/
theorem list_continuation_cex :
    listEnter (str "- a\n- b") (str "- b") 3 = some (str "- a\n- b\n- &nbsp;") ∧
    splitOnChar '\n' ((listEnter (str "- a\n- b") (str "- b") 3).getD []) ≠
      [str "- a", str "- b", str "- "] := by
  constructor
  · decide
  · decide

theorem list_continuation_amended_witness :
    listEnter (str "- a\n- b") (str "- b") 3 =
      some (intercalateNl [str "- a", str "- b", str "- &nbsp;"]) := by
  have h := list_continuation_amended (str "- a\n- b") (str "- b") 3 1 2
    [] (str "- ") (str "b") (str "- &nbsp;") (by decide) (by decide) (by decide)
    (by decide) (by decide) (by decide) (by decide)
  rw [h]
  decide

/-- C4: in a list block, Enter with the caret strictly inside a list line's
content splits the (trimmed) content at the caret offset into two substrings
and emits two sibling lines each repeating the same indent and marker; the
block's id is unchanged and no new block is created — only that one block's
text in the mapping is rewritten, and the ordering sequence is untouched. -/
theorem list_item_split_spec (st : DocState) (id : BlockId) (bm cl : Str) (cp : Nat)
    (i cs o : Nat) (indent marker content llast : Str)
    (hlook : lookupD st.doc id = some bm)
    (hlb : isListBlockX bm = true)
    (hfind : (splitOnChar '\n' bm).findIdx? (fun l => trim l == trim cl) = some i)
    (hparse : parseListLine ((splitOnChar '\n' bm).getD i []) =
      some (indent, marker, content))
    (hcs : jsIndexOf ((splitOnChar '\n' bm).getD i []) (trim content) = (cs : Int))
    (hcp : cp = cs + o) (ho : o < (trim content).length)
    (hlast : ((splitOnChar '\n' bm).take i ++
      (indent ++ marker ++ (trim content).take o) ::
      (indent ++ marker ++ (trim content).drop o) ::
        (splitOnChar '\n' bm).drop (i + 1)).getLast? = some llast)
    (hlne : llast ≠ []) (hltr : trimRight llast = llast) :
    listEnterStep st id cl cp = some
      { doc := setD st.doc id (intercalateNl ((splitOnChar '\n' bm).take i ++
          (indent ++ marker ++ (trim content).take o) ::
          (indent ++ marker ++ (trim content).drop o) ::
            (splitOnChar '\n' bm).drop (i + 1))),
        order := st.order } := by
  have hle := listEnter_inside bm cl cp i cs o indent marker content llast hfind
    hparse hcs hcp ho hlast hlne hltr
  simp only [listEnterStep, hlook, hlb, if_true, hle]

theorem list_item_split_spec_witness :
    listEnterStep ⟨[(0, str "- abcdef")], [0]⟩ 0 (str "- abcdef") 5 = some
      { doc := setD [(0, str "- abcdef")] 0 (intercalateNl [str "- abc", str "- def"]),
        order := [0] } := by
  have h := list_item_split_spec ⟨[(0, str "- abcdef")], [0]⟩ 0 (str "- abcdef")
    (str "- abcdef") 5 0 2 3 [] (str "- ") (str "abcdef") (str "- def")
    (by decide) (by decide) (by decide) (by decide) (by decide) (by decide)
    (by decide) (by decide) (by decide) (by decide)
  rw [h]
  decide

/-- C5 (amended): a heading line is emitted as its own singleton block,
closing any open buffer before it and starting fresh after it, even with no
surrounding blank lines — but the emitted block is the whitespace-TRIMMED
heading line, not the raw line (see the counterexample). -/
theorem heading_isolation_amended (pre suf : List Str) (h : Str)
    (hh : isHeadingLine h = true)
    (hclean : ∀ l ∈ pre ++ h :: suf, '\n' ∉ l ∧ '\r' ∉ l) :
    splitIntoBlocks (intercalateNl (pre ++ h :: suf)) =
      splitIntoBlocks (intercalateNl pre) ++
        trim h :: splitIntoBlocks (intercalateNl suf) :=
  segment_heading_split pre suf h hh hclean

/-- C5 counterexample: the heading line `"# H "` (trailing space, matching the
heading pattern) is not itself among the emitted blocks — only its trimmed
form `"# H"` is. -/
theorem heading_isolation_cex :
    isHeadingLine (str "# H ") = true ∧
    str "# H " ∉ splitIntoBlocks (str "a\n# H \nb") ∧
    splitIntoBlocks (str "a\n# H \nb") = [str "a", str "# H", str "b"] := by
  refine ⟨?_, ?_, ?_⟩
  · decide
  · decide
  · decide

theorem heading_isolation_amended_witness :
    splitIntoBlocks (intercalateNl [str "a", str "# T", str "b"]) =
      splitIntoBlocks (intercalateNl [str "a"]) ++
        trim (str "# T") :: splitIntoBlocks (intercalateNl [str "b"]) :=
  heading_isolation_amended [str "a"] [str "b"] (str "# T") (by decide) (by decide)

/-- C6 (amended): re-segmenting the blank-line join of the segmented blocks
reproduces the same block texts, provided no input line hides a heading
behind leading whitespace (a line whose left-trim matches `/^#+\s/` while the
line itself does not) — the trimming performed by the segmenter otherwise
creates a new heading line on re-segmentation (see the counterexample). -/
theorem segmentation_idempotent_amended (T : Str)
    (hgood : ∀ l ∈ splitOnChar '\n' (normalizeNewlines T),
      isHeadingLine (trimLeft l) = true → isHeadingLine l = true) :
    splitIntoBlocks (joinBlocks (splitIntoBlocks T)) = splitIntoBlocks T :=
  segment_join_blocks _ (segment_blocks_good T hgood)

/-- C6 counterexample: for `T = "  # x\ny"` segmentation yields the single
block `"# x\ny"`, whose re-segmentation splits at the now-unindented heading
into `["# x", "y"]` — idempotence fails. -/
theorem segmentation_idempotence_cex :
    splitIntoBlocks (str "  # x\ny") = [str "# x\ny"] ∧
    splitIntoBlocks (joinBlocks (splitIntoBlocks (str "  # x\ny"))) =
      [str "# x", str "y"] ∧
    splitIntoBlocks (joinBlocks (splitIntoBlocks (str "  # x\ny"))) ≠
      splitIntoBlocks (str "  # x\ny") := by
  refine ⟨?_, ?_, ?_⟩
  · decide
  · decide
  · decide

theorem segmentation_idempotent_amended_witness :
    splitIntoBlocks (joinBlocks (splitIntoBlocks (str "a\nb\n\n# H\nc"))) =
      splitIntoBlocks (str "a\nb\n\n# H\nc") :=
  segmentation_idempotent_amended (str "a\nb\n\n# H\nc") (by decide)

/-- C7: each structural operation — structural split, backward merge and
empty-block deletion — applied to a document state satisfying the invariant
yields a state in which the ordering sequence and the id-to-text mapping
again have identical id sets with no duplicates (fresh ids supplied to
the split are distinct and unused, per the id-generator contract). -/
theorem structural_ops_preserve_invariant (st : DocState) (id : BlockId) (bm : Str)
    (k : Nat) (fresh : List BlockId) (hinv : Inv st)
    (hfr1 : fresh.Nodup) (hfr2 : ∀ f ∈ fresh, f ∉ st.order) (hfr3 : id ∉ fresh) :
    (∀ st' foc, applySplit st id bm k fresh = some (st', foc) → Inv st') ∧
    (∀ st' foc caret, applyMerge st id = some (st', foc, caret) → Inv st') ∧
    (∀ st' foc, applyDelete st id = some (st', foc) → Inv st') :=
  ⟨fun st' foc h => applySplit_inv st id bm k fresh hinv hfr1 hfr2 hfr3 st' foc h,
   fun st' foc caret h => applyMerge_inv st id hinv st' foc caret h,
   fun st' foc h => applyDelete_inv st id hinv st' foc h⟩

theorem structural_ops_preserve_invariant_witness :
    Inv ⟨[(0, str "a"), (1, str "b"), (5, [])], [0, 1, 5]⟩ ∧
    Inv ⟨[(0, str "ab")], [0]⟩ ∧
    Inv ⟨[(0, str "a")], [0]⟩ :=
  ⟨(structural_ops_preserve_invariant ⟨[(0, str "a"), (1, str "b")], [0, 1]⟩ 1
      (str "b") 1 [5] (by decide) (by decide) (by decide) (by decide)).1
      ⟨[(0, str "a"), (1, str "b"), (5, [])], [0, 1, 5]⟩ 5 (by decide),
   (structural_ops_preserve_invariant ⟨[(0, str "a"), (1, str "b")], [0, 1]⟩ 1
      (str "b") 1 [5] (by decide) (by decide) (by decide) (by decide)).2.1
      ⟨[(0, str "ab")], [0]⟩ 0 1 (by decide),
   (structural_ops_preserve_invariant ⟨[(0, str "a"), (1, str "b")], [0, 1]⟩ 1
      (str "b") 1 [5] (by decide) (by decide) (by decide) (by decide)).2.2
      ⟨[(0, str "a")], [0]⟩ (some (0, true)) (by decide)⟩

/-- C8: a structural split always produces at least one block per half — a
half that segments to zero blocks is replaced by a single empty-string
block — and the original block's id is reused for the first resulting block,
staying at its original position in the ordering sequence. -/
theorem split_synthesizes_empty_blocks (st : DocState) (id : BlockId) (bm : Str)
    (k : Nat) (fresh : List BlockId) (idx : Nat)
    (hfind : st.order.findIdx? (fun x => x == id) = some idx)
    (hfr : id ∉ fresh) :
    (splitHalves bm k).1 ≠ [] ∧ (splitHalves bm k).2 ≠ [] ∧
    (splitIntoBlocks (bm.take k) = [] → (splitHalves bm k).1 = [[]]) ∧
    (splitIntoBlocks (bm.drop k) = [] → (splitHalves bm k).2 = [[]]) ∧
    (∀ st' foc, applySplit st id bm k fresh = some (st', foc) →
      lookupD st'.doc id = some ((splitHalves bm k).1.headD []) ∧
      st'.order.getD idx 0 = id) := by
  refine ⟨splitHalves_fst_ne_nil bm k, splitHalves_snd_ne_nil bm k, ?_, ?_, ?_⟩
  · intro h
    simp [splitHalves, h]
  · intro h
    simp [splitHalves, h]
  · intro st' foc h
    unfold applySplit at h
    rw [hfind] at h
    simp only [Option.some.injEq, Prod.mk.injEq] at h
    obtain ⟨rfl, -⟩ := h
    obtain ⟨hlt, -⟩ := findIdx?_beq_spec st.order id idx hfind
    constructor
    · rcases List.exists_cons_of_ne_nil (splitHalves_fst_ne_nil bm k) with ⟨b0, bt, hb⟩
      rw [hb]
      show lookupD (((id :: fresh.take _).zip ((b0 :: bt) ++ (splitHalves bm k).2)).foldl
        (fun m2 p => setD m2 p.1 p.2) st.doc) id = some ((b0 :: bt).headD [])
      rw [List.cons_append, List.zip_cons_cons, List.foldl_cons]
      rw [lookupD_foldl_setD_untouched _ _ id ?hp, lookupD_setD_self]
      · rfl
      case hp =>
        intro p hp
        rcases List.of_mem_zip hp with ⟨h1, -⟩
        intro he
        exact hfr (he ▸ (List.take_sublist _ fresh).subset h1)
    · show (st.order.take idx ++ (id :: fresh.take _) ++ st.order.drop (idx + 1)).getD
        idx 0 = id
      rw [List.append_assoc]
      have hlen : (st.order.take idx).length = idx := by
        rw [List.length_take]
        exact Nat.min_eq_left (Nat.le_of_lt hlt)
      rw [List.getD_eq_getElem _ 0 (by
        rw [List.length_append, hlen]
        simp [Nat.lt_add_of_pos_right])]
      rw [List.getElem_append_right (by rw [hlen]) ]
      simp [hlen]

theorem split_synthesizes_empty_blocks_witness :
    (splitHalves (str "b") 1).1 ≠ [] ∧ (splitHalves (str "b") 1).2 = [[]] ∧
    lookupD [(0, str "a"), (1, str "b"), (5, [])] 1 = some (str "b") ∧
    ([0, 1, 5] : List BlockId).getD 1 0 = 1 := by
  have h := split_synthesizes_empty_blocks ⟨[(0, str "a"), (1, str "b")], [0, 1]⟩ 1
    (str "b") 1 [5] 1 (by decide) (by decide)
  refine ⟨h.1, h.2.2.2.1 (by decide), ?_, ?_⟩
  · have h2 := (h.2.2.2.2 ⟨[(0, str "a"), (1, str "b"), (5, [])], [0, 1, 5]⟩ 5
      (by decide)).1
    rw [h2]
    decide
  · exact (h.2.2.2.2 ⟨[(0, str "a"), (1, str "b"), (5, [])], [0, 1, 5]⟩ 5 (by decide)).2

/-- C9: the Bold command with a non-collapsed selection inside an identifiable
block (one whose nonempty content is found in the mapping, with nonempty
selected text) splices `**` around the selected text at the selection's
offsets; it is a no-op whenever the selection is collapsed or no owning block
is identified. -/
theorem inline_bold_spec (doc : List (BlockId × Str)) (isCollapsed : Bool)
    (blockId? : Option BlockId) (selectedText : Str) (so eo : Nat) :
    (isCollapsed = true ∨ blockId? = none →
      applyInlineBold doc isCollapsed blockId? selectedText so eo = doc) ∧
    (∀ b content, isCollapsed = false → blockId? = some b →
      lookupD doc b = some content → content ≠ [] → selectedText ≠ [] →
      applyInlineBold doc isCollapsed blockId? selectedText so eo =
        setD doc b (content.take so ++ ['*', '*'] ++ selectedText ++ ['*', '*'] ++
          content.drop eo)) := by
  constructor
  · rintro (h | h)
    · subst h
      rfl
    · subst h
      unfold applyInlineBold
      by_cases hc : isCollapsed = true
      · rw [if_pos hc]
      · rw [if_neg hc]
  · intro b content hc hb hl hcne hsne
    subst hc
    subst hb
    unfold applyInlineBold
    rw [if_neg (by simp)]
    simp only [hl]
    rw [if_neg (by rw [List.isEmpty_iff]; exact hcne),
      if_neg (by rw [List.isEmpty_iff]; exact hsne)]

theorem inline_bold_spec_witness :
    applyInlineBold [(0, str "hello")] false (some 0) (str "ell") 1 4 =
      setD [(0, str "hello")] 0 ((str "hello").take 1 ++ ['*', '*'] ++ str "ell" ++
        ['*', '*'] ++ (str "hello").drop 4) :=
  (inline_bold_spec [(0, str "hello")] false (some 0) (str "ell") 1 4).2 0
    (str "hello") rfl rfl (by decide) (by decide) (by decide)

/-- C10: the second Backspace-at-start-of-block branch of the `handleKeyDown`
else-if chain is unreachable: its guard is identical to the earlier
backward-merge branch's guard, so the chain never selects `mergeSecond` and
all backward-merge behaviour is decided by the first branch. -/
theorem second_merge_branch_unreachable (key : String)
    (shiftKey caretAtStart textEmptyOrZw : Bool) :
    keydownBranch key shiftKey caretAtStart textEmptyOrZw ≠
      HandlerBranch.mergeSecond := by
  unfold keydownBranch
  split_ifs <;> simp_all

end MdEditor
